import Mathlib

/-!
# Verification of the AutoCleanUp (ACU) core of `exceptions-and-raii-in-c`

A shallow embedding of `src/autocleanup.c` (the per-thread cleanup stack,
scope protocol, ownership operations and the reference-counted shared layer)
together with proofs about the claims of the specification.

Modelling conventions:
* The per-thread main cleanup stack (`_acu_stack_ptr` plus the intrusive
  `prev`/`next` links) is modelled as a Lean list of entries, head = top of
  the stack.  Every node carries a unique `id` standing for its address.
  For the one function whose behaviour depends on raw pointer identity
  (`acu_submit_to`, which pushes onto a *different* stack but still reads
  the global `_acu_stack_ptr`), a separate pointer-level heap model is
  given further below.
* Machine integers: `long _acu_scope` and the reference counters are `Int`
  (the program never gets anywhere near overflow in the scenarios the
  claims quantify over); flag bitsets are `Nat` with `&&&`/`|||`.
* Destructor function pointers are symbolic: a user-supplied destructor is
  `DelFun.user f` for a numeric id `f`; the two internal reference-count
  destructors `_acu_del_strong_ref` / `_acu_del_weak_ref` are dedicated
  constructors, since the code compares function pointers against them.
* Resource handles (`void *ptr`) are opaque `Nat` values.
* `calloc_t` never fails in the model (its failure path throws a
  pre-existing static exception and is outside the claims considered).
* We model the single-threaded build (`ACU_THREAD_SAFE` undefined): the
  thread-safe build performs the same arithmetic with atomic operations.
-/

namespace Acu

/-- A destructor function pointer: `NULL` is represented by `Option.none`
around this type; a user-supplied release function is `user f`;
`strongRef` and `weakRef` are the library's own `_acu_del_strong_ref` and
`_acu_del_weak_ref`, which the code compares against by address. -/
inductive DelFun
  | user (f : Nat)
  | strongRef
  | weakRef
deriving DecidableEq, Repr

/-- `_ACU_TRANSFERRABLE` from `autocleanup.c`. -/
def _ACU_TRANSFERRABLE : Nat := 1
/-- `_ACU_SHAREABLE` from `autocleanup.c`. -/
def _ACU_SHAREABLE : Nat := 2
/-- `_ACU_SUBMITTABLE` from `autocleanup.c`. -/
def _ACU_SUBMITTABLE : Nat := 4

/-- The capability test exactly as the C compiler parses the source text
`props & FLAG == 0`: equality binds tighter than bitwise and, so this is
`props & (FLAG == 0)`, whose value (used as an if-condition) is
`props &&& (if FLAG = 0 then 1 else 0) ≠ 0`. -/
def capGuardAsWritten (props flag : Nat) : Bool :=
  props &&& (if flag = 0 then 1 else 0) != 0

/-- The capability test the surrounding error messages intend: the flag is
absent from the bitset. -/
def capGuardIntended (props flag : Nat) : Bool :=
  props &&& flag == 0

/-- `struct _acu_stack_node` (`acu_unique`): the base record (`ptr`, `del`)
plus the bookkeeping fields.  The intrusive `prev`/`next` links are
represented by the position of the entry in the stack list; `id` stands
for the node's address and is unique per allocation. -/
structure Entry where
  id : Nat
  ptr : Nat
  del : Option DelFun
  scope : Int
  properties : Nat
deriving DecidableEq, Repr

/-- Observable events of a run: `rel src d p` records that the node with
address `src` was destructed and invoked its destructor `d` on handle `p`
(`_acu_destruct` skips the call when `del` is `NULL`, so no event is
emitted then); `baseRel d p` records `(s->base.del)(s->base.ptr)` on a
shared node; `freeShared` records `free(s)` of the shared record. -/
inductive Event
  | rel (src : Nat) (d : DelFun) (p : Nat)
  | baseRel (d : DelFun) (p : Nat)
  | freeShared
deriving DecidableEq, Repr

/-- The thread-local registers of `autocleanup.c`:
`_acu_stack_ptr` (the main stack, head = top), `_acu_latest`
(address of the most recent unique node, or `NULL`), `_acu_scope`, and the
allocator cursor `nextId` handing out fresh node addresses. -/
structure ThreadState where
  stack : List Entry
  latest : Option Nat
  scopeLevel : Int
  nextId : Nat
deriving DecidableEq, Repr

/-- The destructor invocation performed by `_acu_destruct`:
`if (u->base.del) (u->base.del)(u->base.ptr);`. -/
def destructEvents (e : Entry) : List Event :=
  match e.del with
  | some d => [.rel e.id d e.ptr]
  | none => []

/-- Destructor invocations of a list of nodes, in list order. -/
def releaseEvents : List Entry → List Event
  | [] => []
  | e :: es => destructEvents e ++ releaseEvents es

/-- `_acu_new_unique` for the main stack: allocate a node, link it on top
of the stack, stamp it with the current scope and all three capability
flags.  (In the C source the same function also serves the private stack
of a shared object; there its line `u->prev = _acu_stack_ptr;` links the
new node to the *main* stack — that build is treated in the pointer-level
model below.) -/
def _acu_new_unique (ptr : Nat) (del : Option DelFun) (ts : ThreadState) :
    Entry × ThreadState :=
  let u : Entry :=
    { id := ts.nextId, ptr := ptr, del := del, scope := ts.scopeLevel,
      properties := _ACU_TRANSFERRABLE ||| _ACU_SHAREABLE ||| _ACU_SUBMITTABLE }
  (u, { ts with stack := u :: ts.stack, nextId := ts.nextId + 1 })

/-- `acu_new_unique`: push to the main stack and set `_acu_latest`. -/
def acu_new_unique (ptr : Nat) (del : Option DelFun) (ts : ThreadState) :
    Entry × ThreadState :=
  let (u, ts') := _acu_new_unique ptr del ts
  (u, { ts' with latest := some u.id })

/-- `acu_reserve`: an empty unique node, `acu_new_unique(NULL, NULL)`. -/
def acu_reserve (ts : ThreadState) : Entry × ThreadState :=
  acu_new_unique 0 none ts

/-- `acu_latest`: return `_acu_latest` and clear it; throw a name
exception if it is `NULL`. -/
def acu_latest (ts : ThreadState) : Except String (Nat × ThreadState) :=
  match ts.latest with
  | none => .error "acu_latest: no object available"
  | some i => .ok (i, { ts with latest := none })

/-- `acu_destruct`: clear `_acu_latest`, unlink the node with address `i`
from the main stack (adjusting the stack pointer when it was the top) and
run its destructor. -/
def acu_destruct (i : Nat) (ts : ThreadState) : ThreadState × List Event :=
  match ts.stack.find? (fun e => e.id = i) with
  | none => ({ ts with latest := none }, [])
  | some u =>
      ({ ts with latest := none, stack := ts.stack.filter (fun e => e.id ≠ i) },
       destructEvents u)

/-- `acu_yield`: the capability guard as written (which never fires, see
`capGuardAsWritten`), then `if (u->scope > _acu_scope - 1) u->scope =
_acu_scope - 1;`. -/
def acu_yield (i : Nat) (ts : ThreadState) : Except String ThreadState :=
  match ts.stack.find? (fun e => e.id = i) with
  | none => .error "invalid unique pointer"
  | some u =>
      if capGuardAsWritten u.properties _ACU_TRANSFERRABLE then
        .error "acu_yield: non-transferrable pointer"
      else
        .ok { ts with stack := ts.stack.map (fun e =>
          if e.id = i then
            { e with scope := if e.scope > ts.scopeLevel - 1 then ts.scopeLevel - 1 else e.scope }
          else e) }

/-- The loop of `_acu_cleanup`, acting on the segment of the stack above
(and including) the marker node: walking from the top, a node whose
`scope` exceeds `minscope` is destructed and spliced out (`*n = c->prev;
_acu_destruct(c);`), any other node is preserved and re-linked
(`next`/`prev` surgery), which in the list representation keeps it, in
order, in the resulting stack.  Returns the surviving segment and the
destructor invocations in traversal (LIFO) order. -/
def _acu_cleanup_seg (minscope : Int) : List Entry → List Entry × List Event
  | [] => ([], [])
  | e :: es =>
      let (kept, evs) := _acu_cleanup_seg minscope es
      if e.scope > minscope then (kept, destructEvents e ++ evs)
      else (e :: kept, evs)

/-- Modelled from the spec: the scope-entry half of the bracket macros
(`BEGIN` / `BEGIN_SCOPE`).  The macro layer shipped in `src/autocleanup.h`
predates the scope-level mechanism of `src/autocleanup.c` — it passes two
arguments to the three-parameter `_acu_cleanup` and never touches
`_acu_scope` — so the scope protocol is modelled from the spec:
"`enter_scope()` increments `scope_level` and records the current
`stack_top` as the scope's marker" (the marker is the stack at entry).
`BEGIN` additionally resets `_acu_latest` (`_acu_latest = NULL;` in the
macro). -/
def enterScope (ts : ThreadState) : List Entry × ThreadState :=
  (ts.stack, { ts with scopeLevel := ts.scopeLevel + 1, latest := none })

/-- Modelled from the spec: the scope-exit half (`END` / `END_SCOPE` /
`acu_return`): drain everything above the recorded marker with
`_acu_cleanup`, preserving entries whose scope is at most the level being
preserved (`minscope = scope_level - 1`), then decrement `scope_level`.
The marker is the stack recorded at entry; entries above it form the
segment handed to the `_acu_cleanup` loop. -/
def leaveScope (marker : List Entry) (ts : ThreadState) :
    ThreadState × List Event :=
  let seg := ts.stack.take (ts.stack.length - marker.length)
  let r := _acu_cleanup_seg (ts.scopeLevel - 1) seg
  ({ ts with stack := r.1 ++ marker, scopeLevel := ts.scopeLevel - 1 }, r.2)

/-! ## Sequences of registrations and yields inside one scope

The claims about `leave_scope` quantify over "every sequence of
registrations" (wrapped-constructor calls, i.e. `acu_new_unique`) with
`acu_yield` applied to some of them.  `ScopeOp` is that op language;
`runScopeOps` executes it against the thread state. -/

/-- One operation performed inside a scope: `reg p f` is a wrapped
constructor call `acu_new_unique(p, f)`; `yld i` is `acu_yield` on the
node with address `i`. -/
inductive ScopeOp
  | reg (ptr : Nat) (f : Nat)
  | yld (i : Nat)
deriving DecidableEq, Repr

/-- Execute a sequence of in-scope operations.  `acu_yield` can only fail
on an invalid pointer (its capability guard never fires); on valid
sequences the error branch is unreachable. -/
def runScopeOps : List ScopeOp → ThreadState → ThreadState
  | [], ts => ts
  | .reg p f :: ops, ts => runScopeOps ops (acu_new_unique p (some (.user f)) ts).2
  | .yld i :: ops, ts =>
      match acu_yield i ts with
      | .ok ts' => runScopeOps ops ts'
      | .error _ => ts

/-- Validity of an op sequence: every `yld i` names a node registered by
an earlier `reg` of the same sequence (`s` is the first address handed
out in the sequence, the second argument threads the allocation
cursor). -/
def opsValid (s : Nat) : Nat → List ScopeOp → Bool
  | _, [] => true
  | nid, .reg _ _ :: ops => opsValid s (nid + 1) ops
  | nid, .yld i :: ops => decide (s ≤ i) && decide (i < nid) && opsValid s nid ops

/-- The registrations of an op sequence in program order, with the
addresses the allocator will hand them: `(address, ptr, f)`. -/
def regList : Nat → List ScopeOp → List (Nat × Nat × Nat)
  | _, [] => []
  | nid, .reg p f :: ops => (nid, p, f) :: regList (nid + 1) ops
  | nid, .yld _ :: ops => regList nid ops

/-- The addresses on which `acu_yield` is called in an op sequence. -/
def yldIds : List ScopeOp → List Nat
  | [] => []
  | .reg _ _ :: ops => yldIds ops
  | .yld i :: ops => i :: yldIds ops

/-- The entry a registration `(address, ptr, f)` has become by scope exit:
scope `L - 1` if it was yielded, `L` otherwise. -/
def ledgerEntry (L : Int) (yl : List Nat) (x : Nat × Nat × Nat) : Entry :=
  { id := x.1, ptr := x.2.1, del := some (.user x.2.2),
    scope := if x.1 ∈ yl then L - 1 else L,
    properties := _ACU_TRANSFERRABLE ||| _ACU_SHAREABLE ||| _ACU_SUBMITTABLE }

/-- The effect of all the yields of a sequence on one entry. -/
def yieldUpd (L : Int) (yl : List Nat) (e : Entry) : Entry :=
  if e.id ∈ yl then
    { e with scope := if e.scope > L - 1 then L - 1 else e.scope }
  else e

/-- The segment of the stack a scope has pushed, as of scope exit:
newest registration first. -/
def ledgerOf (L : Int) (startId : Nat) (ops : List ScopeOp) : List Entry :=
  (regList startId ops).reverse.map (ledgerEntry L (yldIds ops))

/-! ### Helper lemmas -/

/-- The capability guards in `acu_transfer`, `acu_yield`, `acu_swap`,
`acu_share` and `acu_submit_to` never fire for a nonzero flag: the C
expression `props & FLAG == 0` parses as `props & (FLAG == 0)` =
`props & 0` = `0`. -/
theorem capGuardAsWritten_false (props flag : Nat) (h : flag ≠ 0) :
    capGuardAsWritten props flag = false := by
  simp [capGuardAsWritten, h]

theorem map_eq_self_of {α : Type} (f : α → α) :
    ∀ (l : List α), (∀ a ∈ l, f a = a) → l.map f = l
  | [], _ => rfl
  | a :: l, h => by
      simp only [List.map_cons, List.cons.injEq]
      exact ⟨h a (by simp), map_eq_self_of f l (fun b hb => h b (by simp [hb]))⟩

theorem regList_ge : ∀ (ops : List ScopeOp) (nid : Nat),
    ∀ x ∈ regList nid ops, nid ≤ x.1
  | [], _ => by simp [regList]
  | .reg p f :: ops, nid => by
      intro x hx
      simp only [regList, List.mem_cons] at hx
      rcases hx with rfl | hx
      · exact Nat.le_refl _
      · exact Nat.le_of_succ_le (regList_ge ops (nid + 1) x hx)
  | .yld i :: ops, nid => by
      intro x hx
      exact regList_ge ops nid x hx

/-- `_acu_cleanup` on a segment: the survivors are exactly the entries
whose scope does not exceed `minscope`, in order, and the destructor
invocations are exactly those of the entries whose scope exceeds
`minscope`, in traversal (top-down, LIFO) order. -/
theorem cleanup_seg_spec (ms : Int) :
    ∀ (l : List Entry),
      _acu_cleanup_seg ms l =
        (l.filter (fun e => decide (e.scope ≤ ms)),
         releaseEvents (l.filter (fun e => decide (ms < e.scope))))
  | [] => rfl
  | e :: es => by
      have ih := cleanup_seg_spec ms es
      by_cases h : e.scope > ms
      · have h1 : decide (e.scope ≤ ms) = false := by
          simp [decide_eq_false_iff_not]; omega
        have h2 : decide (ms < e.scope) = true := by simpa using h
        simp [_acu_cleanup_seg, ih, if_pos h, List.filter_cons, h1, h2, releaseEvents]
      · have h1 : decide (e.scope ≤ ms) = true := by
          simp only [decide_eq_true_eq]; omega
        have h2 : decide (ms < e.scope) = false := by
          simp [decide_eq_false_iff_not]; omega
        simp [_acu_cleanup_seg, ih, if_neg h, List.filter_cons, h1, h2]

theorem map_congr_mem {α β : Type} (f g : α → β) :
    ∀ (l : List α), (∀ a ∈ l, f a = g a) → l.map f = l.map g
  | [], _ => rfl
  | a :: l, h => by
      simp only [List.map_cons, List.cons.injEq]
      exact ⟨h a (by simp), map_congr_mem f g l (fun b hb => h b (by simp [hb]))⟩

/-- Running a sequence of in-scope operations: the stack splits into the
scope's ledger (the registrations, newest first, with yields applied) on
top of the yield-updates of `acc` on top of the untouched part `old`,
where `old` is everything allocated before address `s` and `acc` the
already-present entries of the running scope. -/
theorem runScopeOps_split :
    ∀ (ops : List ScopeOp) (ts : ThreadState) (s : Nat) (acc old : List Entry),
      ts.stack = acc ++ old →
      (∀ e ∈ old, e.id < s) →
      (∀ j, s ≤ j → j < ts.nextId → ∃ e ∈ acc, e.id = j) →
      s ≤ ts.nextId →
      opsValid s ts.nextId ops = true →
      (runScopeOps ops ts).stack =
          (regList ts.nextId ops).reverse.map (ledgerEntry ts.scopeLevel (yldIds ops))
            ++ acc.map (yieldUpd ts.scopeLevel (yldIds ops)) ++ old
        ∧ (runScopeOps ops ts).scopeLevel = ts.scopeLevel
  | [], ts, s, acc, old, h1, _, _, _, _ => by
      refine ⟨?_, rfl⟩
      have : acc.map (yieldUpd ts.scopeLevel (yldIds [])) = acc :=
        map_eq_self_of _ acc (fun e _ => by simp [yieldUpd, yldIds])
      simpa [runScopeOps, regList, this] using h1
  | .reg p f :: ops, ts, s, acc, old, h1, h2, h3, h5, h6 => by
      set L := ts.scopeLevel with hL
      set nid := ts.nextId with hnid
      set newE : Entry :=
        { id := nid, ptr := p, del := some (.user f), scope := L,
          properties := _ACU_TRANSFERRABLE ||| _ACU_SHAREABLE ||| _ACU_SUBMITTABLE } with hnewE
      have hts' : (acu_new_unique p (some (.user f)) ts).2 =
          { ts with
              stack := newE :: ts.stack
              nextId := nid + 1
              latest := some nid } := by
        simp [acu_new_unique, _acu_new_unique, hnewE]
      have ih := runScopeOps_split ops ((acu_new_unique p (some (.user f)) ts).2) s
        (newE :: acc) old
        (by simp [hts', h1])
        h2
        (by
          intro j hj1 hj2
          simp only [hts'] at hj2
          rcases Nat.lt_succ_iff_lt_or_eq.mp hj2 with hlt | rfl
          · obtain ⟨e, he, heid⟩ := h3 j hj1 hlt
            exact ⟨e, by simp [he], heid⟩
          · exact ⟨newE, by simp, rfl⟩)
        (by simp [hts']; omega)
        (by
          simpa [hts', opsValid] using h6)
      rw [hts'] at ih
      obtain ⟨ihs, ihl⟩ := ih
      have hrun : runScopeOps (.reg p f :: ops) ts =
          runScopeOps ops ((acu_new_unique p (some (.user f)) ts).2) := rfl
      rw [hts'] at hrun
      constructor
      · rw [hrun, ihs]
        have hyl : yldIds (.reg p f :: ops) = yldIds ops := rfl
        have hreg : regList nid (.reg p f :: ops) = (nid, p, f) :: regList (nid + 1) ops := rfl
        have hentry : yieldUpd L (yldIds ops) newE =
            ledgerEntry L (yldIds ops) (nid, p, f) := by
          have hgt : L > L - 1 := by omega
          by_cases hmem : nid ∈ yldIds ops
          · simp [yieldUpd, ledgerEntry, hmem, hnewE, hgt]
          · simp [yieldUpd, ledgerEntry, hmem, hnewE]
        rw [hyl, hreg]
        simp only [List.reverse_cons, List.map_append, List.map_cons, List.map_nil,
          List.append_assoc, List.singleton_append, List.cons_append, List.nil_append]
        rw [hentry]
      · rw [hrun, ihl]
  | .yld i :: ops, ts, s, acc, old, h1, h2, h3, h5, h6 => by
      set L := ts.scopeLevel with hL
      set nid := ts.nextId with hnid
      have h6' : (s ≤ i ∧ i < nid) ∧ opsValid s nid ops = true := by
        simpa [opsValid, Bool.and_eq_true, decide_eq_true_eq, and_assoc] using h6
      obtain ⟨⟨hsi, hin⟩, hops⟩ := h6'
      obtain ⟨u, hu, huid⟩ := h3 i hsi hin
      have humem : u ∈ ts.stack := by rw [h1]; exact List.mem_append_left _ hu
      -- the find? in acu_yield succeeds
      have hfind_ne : ts.stack.find? (fun e => decide (e.id = i)) ≠ none := by
        intro hnone
        rw [List.find?_eq_none] at hnone
        exact hnone u humem (by simp [huid])
      set updI : Entry → Entry := fun e =>
        if e.id = i then
          { e with scope := if e.scope > L - 1 then L - 1 else e.scope }
        else e with hupdI
      have hok : acu_yield i ts = .ok { ts with stack := ts.stack.map updI } := by
        unfold acu_yield
        cases hfind : ts.stack.find? (fun e => decide (e.id = i)) with
        | none => exact absurd hfind hfind_ne
        | some v =>
            simp [capGuardAsWritten_false v.properties _ACU_TRANSFERRABLE (by decide), hupdI]
      set ts2 : ThreadState := { ts with stack := ts.stack.map updI } with hts2
      have hrun : runScopeOps (.yld i :: ops) ts = runScopeOps ops ts2 := by
        simp only [runScopeOps, hok]
      have hold_id : old.map updI = old :=
        map_eq_self_of _ old (fun e he => by
          have : e.id ≠ i := by have := h2 e he; omega
          simp [hupdI, this])
      have hstack2 : ts2.stack = acc.map updI ++ old := by
        simp [hts2, h1, List.map_append, hold_id]
      have hid_pres : ∀ e, (updI e).id = e.id := by
        intro e
        by_cases he : e.id = i <;> simp [hupdI, he]
      have ih := runScopeOps_split ops ts2 s (acc.map updI) old
        hstack2
        h2
        (by
          intro j hj1 hj2
          obtain ⟨e, he, heid⟩ := h3 j hj1 hj2
          exact ⟨updI e, List.mem_map_of_mem _ he, by rw [hid_pres]; exact heid⟩)
        h5
        hops
      obtain ⟨ihs, ihl⟩ := ih
      constructor
      · rw [hrun, ihs]
        have hyl : yldIds (.yld i :: ops) = i :: yldIds ops := rfl
        have hreg : regList nid (.yld i :: ops) = regList nid ops := rfl
        rw [hyl, hreg]
        -- the registrations of the rest are unaffected by adding `i` to the yields
        have hregmap :
            (regList nid ops).reverse.map (ledgerEntry L (i :: yldIds ops)) =
            (regList nid ops).reverse.map (ledgerEntry L (yldIds ops)) := by
          apply map_congr_mem
          intro x hx
          have hxge : nid ≤ x.1 := regList_ge ops nid x (List.mem_reverse.mp hx)
          have hxne : x.1 ≠ i := by omega
          simp [ledgerEntry, hxne]
        -- composing the single yield with the remaining yields
        have haccmap : (acc.map updI).map (yieldUpd L (yldIds ops)) =
            acc.map (yieldUpd L (i :: yldIds ops)) := by
          rw [List.map_map]
          apply map_congr_mem
          intro e _
          by_cases he : e.id = i
          · have hm : ¬ ((if e.scope > L - 1 then L - 1 else e.scope) > L - 1) := by
              by_cases hs : e.scope > L - 1 <;> simp [hs]
            by_cases hmem : e.id ∈ yldIds ops
            · simp [Function.comp, hupdI, yieldUpd, he, hmem, hm]
            · simp [Function.comp, hupdI, yieldUpd, he, hmem, hm]
          · have hmm : e.id ∈ i :: yldIds ops ↔ e.id ∈ yldIds ops := by simp [he]
            by_cases hmem : e.id ∈ yldIds ops
            · simp [Function.comp, hupdI, yieldUpd, he, hmem]
            · simp [Function.comp, hupdI, yieldUpd, he, hmem]
        rw [hregmap, haccmap]
      · rw [hrun, ihl]

theorem releaseEvents_map_ledger (L : Int) (yl : List Nat) :
    ∀ (l : List (Nat × Nat × Nat)),
      releaseEvents (l.map (ledgerEntry L yl)) =
        l.map (fun x => Event.rel x.1 (.user x.2.2) x.2.1)
  | [] => rfl
  | x :: l => by
      simp [releaseEvents, ledgerEntry, destructEvents, releaseEvents_map_ledger L yl l]

theorem ledger_filter_yielded (L : Int) (yl : List Nat) :
    ∀ (l : List (Nat × Nat × Nat)),
      (l.map (ledgerEntry L yl)).filter (fun e => decide (e.scope ≤ L - 1)) =
        (l.filter (fun x => decide (x.1 ∈ yl))).map (ledgerEntry L yl)
  | [] => rfl
  | x :: l => by
      have ih := ledger_filter_yielded L yl l
      by_cases hmem : x.1 ∈ yl
      · have hsc : (ledgerEntry L yl x).scope = L - 1 := by simp [ledgerEntry, hmem]
        simp [List.filter_cons, hsc, hmem, ih]
      · have hsc : (ledgerEntry L yl x).scope = L := by simp [ledgerEntry, hmem]
        have hnot : ¬ (L ≤ L - 1) := by omega
        simp [List.filter_cons, hsc, hmem, hnot, ih]

theorem ledger_filter_nonyielded (L : Int) (yl : List Nat) :
    ∀ (l : List (Nat × Nat × Nat)),
      (l.map (ledgerEntry L yl)).filter (fun e => decide (L - 1 < e.scope)) =
        (l.filter (fun x => decide (x.1 ∉ yl))).map (ledgerEntry L yl)
  | [] => rfl
  | x :: l => by
      have ih := ledger_filter_nonyielded L yl l
      by_cases hmem : x.1 ∈ yl
      · have hsc : (ledgerEntry L yl x).scope = L - 1 := by simp [ledgerEntry, hmem]
        simp [List.filter_cons, hsc, hmem, ih]
      · have hsc : (ledgerEntry L yl x).scope = L := by simp [ledgerEntry, hmem]
        have hlt : L - 1 < L := by omega
        simp [List.filter_cons, hsc, hmem, hlt, ih]

/-- Shared scenario lemma for the scope-drain claims: enter a scope, run
any valid sequence of registrations and yields, leave the scope.  The
emitted destructor calls are exactly those of the non-yielded
registrations, newest first; the new stack is the yielded registrations
(newest first) on top of the untouched outer stack; the scope level is
restored. -/
theorem scope_run_spec (ts0 : ThreadState) (ops : List ScopeOp)
    (hWF : ∀ e ∈ ts0.stack, e.id < ts0.nextId)
    (hops : opsValid ts0.nextId ts0.nextId ops = true) :
    (leaveScope (enterScope ts0).1 (runScopeOps ops (enterScope ts0).2)).2 =
        ((regList ts0.nextId ops).reverse.filter
          (fun x => decide (x.1 ∉ yldIds ops))).map
          (fun x => Event.rel x.1 (.user x.2.2) x.2.1)
      ∧ (leaveScope (enterScope ts0).1 (runScopeOps ops (enterScope ts0).2)).1.stack =
        ((regList ts0.nextId ops).reverse.filter
          (fun x => decide (x.1 ∈ yldIds ops))).map
          (ledgerEntry (ts0.scopeLevel + 1) (yldIds ops)) ++ ts0.stack
      ∧ (leaveScope (enterScope ts0).1 (runScopeOps ops (enterScope ts0).2)).1.scopeLevel =
        ts0.scopeLevel := by
  set L : Int := ts0.scopeLevel + 1 with hLdef
  set nid := ts0.nextId with hnid
  have henter : enterScope ts0 =
      (ts0.stack, { ts0 with scopeLevel := L, latest := none }) := rfl
  set ts1 : ThreadState := { ts0 with scopeLevel := L, latest := none } with hts1
  have hsplit := runScopeOps_split ops ts1 nid [] ts0.stack
    (by simp [hts1])
    hWF
    (by intro j hj1 hj2; simp [hts1] at hj2; omega)
    (by simp [hts1])
    (by simpa [hts1] using hops)
  obtain ⟨hstack2, hlevel2⟩ := hsplit
  simp only [hts1] at hstack2 hlevel2
  set ts2 := runScopeOps ops ts1 with hts2
  set ledger := (regList nid ops).reverse.map (ledgerEntry L (yldIds ops)) with hledger
  have hstack2' : ts2.stack = ledger ++ ts0.stack := by
    simpa [hledger] using hstack2
  -- the marker recovers exactly the scope's segment
  have htake : ts2.stack.take (ts2.stack.length - ts0.stack.length) = ledger := by
    rw [hstack2']
    have hlen : (ledger ++ ts0.stack).length - ts0.stack.length = ledger.length := by
      simp
    rw [hlen]
    exact List.take_left ledger ts0.stack
  have hclean := cleanup_seg_spec (L - 1) ledger
  have hyield := ledger_filter_yielded L (yldIds ops) (regList nid ops).reverse
  have hnonyield := ledger_filter_nonyielded L (yldIds ops) (regList nid ops).reverse
  have hminscope : ts2.scopeLevel - 1 = L - 1 := by rw [hlevel2]
  have hleave : leaveScope ts0.stack ts2 =
      ({ ts2 with
          stack := ((regList nid ops).reverse.filter
              (fun x => decide (x.1 ∈ yldIds ops))).map
              (ledgerEntry L (yldIds ops)) ++ ts0.stack
          scopeLevel := ts2.scopeLevel - 1 },
        releaseEvents (((regList nid ops).reverse.filter
          (fun x => decide (x.1 ∉ yldIds ops))).map (ledgerEntry L (yldIds ops)))) := by
    unfold leaveScope
    rw [htake, hminscope]
    simp only [hclean]
    rw [hledger, hyield, hnonyield]
  rw [henter]
  simp only
  rw [← hts2, hleave]
  refine ⟨?_, ?_, ?_⟩
  · exact releaseEvents_map_ledger L (yldIds ops) _
  · rfl
  · simp only [hlevel2, hLdef]
    omega

/-- C1: for every sequence of registrations (with yields) followed by a
`leave_scope` of the enclosing scope, the release function of every entry
registered in that scope and not yielded is invoked exactly once, in
strict reverse-registration (LIFO) order — the event list is exactly the
map of the reversed registration list with the yielded ones filtered out —
while yielded entries are not released but are re-linked, in order, on
top of the intact outer stack. -/
theorem leave_scope_releases_nonyielded_lifo
    (ts0 : ThreadState) (ops : List ScopeOp)
    (hWF : ∀ e ∈ ts0.stack, e.id < ts0.nextId)
    (hops : opsValid ts0.nextId ts0.nextId ops = true) :
    (leaveScope (enterScope ts0).1 (runScopeOps ops (enterScope ts0).2)).2 =
        ((regList ts0.nextId ops).reverse.filter
          (fun x => decide (x.1 ∉ yldIds ops))).map
          (fun x => Event.rel x.1 (.user x.2.2) x.2.1)
      ∧ (leaveScope (enterScope ts0).1 (runScopeOps ops (enterScope ts0).2)).1.stack =
        ((regList ts0.nextId ops).reverse.filter
          (fun x => decide (x.1 ∈ yldIds ops))).map
          (ledgerEntry (ts0.scopeLevel + 1) (yldIds ops)) ++ ts0.stack
      ∧ (leaveScope (enterScope ts0).1 (runScopeOps ops (enterScope ts0).2)).1.scopeLevel =
        ts0.scopeLevel :=
  scope_run_spec ts0 ops hWF hops

/-- Witness for C1: three registrations, the middle one yielded; leaving
the scope releases the third and first (in that order) and keeps the
yielded second on the stack at the outer scope level. -/
theorem leave_scope_releases_nonyielded_lifo_witness :
    (∀ e ∈ (⟨[], none, 0, 0⟩ : ThreadState).stack,
        e.id < (⟨[], none, 0, 0⟩ : ThreadState).nextId)
    ∧ opsValid 0 0 [ScopeOp.reg 10 5, ScopeOp.reg 11 6, ScopeOp.reg 12 7, ScopeOp.yld 1] = true
    ∧ ((leaveScope (enterScope ⟨[], none, 0, 0⟩).1
          (runScopeOps [ScopeOp.reg 10 5, ScopeOp.reg 11 6, ScopeOp.reg 12 7, ScopeOp.yld 1]
            (enterScope ⟨[], none, 0, 0⟩).2)).2 =
        [Event.rel 2 (.user 7) 12, Event.rel 0 (.user 5) 10]
      ∧ (leaveScope (enterScope ⟨[], none, 0, 0⟩).1
          (runScopeOps [ScopeOp.reg 10 5, ScopeOp.reg 11 6, ScopeOp.reg 12 7, ScopeOp.yld 1]
            (enterScope ⟨[], none, 0, 0⟩).2)).1.stack =
        [⟨1, 11, some (.user 6), 0, 7⟩]
      ∧ (leaveScope (enterScope ⟨[], none, 0, 0⟩).1
          (runScopeOps [ScopeOp.reg 10 5, ScopeOp.reg 11 6, ScopeOp.reg 12 7, ScopeOp.yld 1]
            (enterScope ⟨[], none, 0, 0⟩).2)).1.scopeLevel = 0) := by
  refine ⟨by decide, by decide, ?_⟩
  have h := leave_scope_releases_nonyielded_lifo ⟨[], none, 0, 0⟩
    [ScopeOp.reg 10 5, ScopeOp.reg 11 6, ScopeOp.reg 12 7, ScopeOp.yld 1]
    (by decide) (by decide)
  exact ⟨by rw [h.1]; decide, by rw [h.2.1]; decide, by rw [h.2.2]⟩

/-- C2: `acu_yield` applied to a transferable entry lowers its recorded
scope to one less than the current scope level, never raising it (the new
scope is `min (scope_level - 1) old`); and whenever the entry was
registered and yielded inside a scope, leaving that scope keeps the entry
registered at the enclosing level — its release is never invoked and the
surviving entries keep their relative order on top of the intact outer
stack. -/
theorem yield_survives_scope_drain :
    (∀ (ts : ThreadState) (i : Nat) (u : Entry),
        ts.stack.find? (fun e => decide (e.id = i)) = some u →
        u.properties &&& _ACU_TRANSFERRABLE ≠ 0 →
        acu_yield i ts = .ok { ts with stack := ts.stack.map (fun e =>
          if e.id = i then { e with scope := min (ts.scopeLevel - 1) e.scope } else e) })
    ∧ (∀ (ts0 : ThreadState) (ops : List ScopeOp) (i p f : Nat),
        (∀ e ∈ ts0.stack, e.id < ts0.nextId) →
        opsValid ts0.nextId ts0.nextId ops = true →
        i ∈ yldIds ops →
        (i, p, f) ∈ regList ts0.nextId ops →
        ((⟨i, p, some (.user f), ts0.scopeLevel,
              _ACU_TRANSFERRABLE ||| _ACU_SHAREABLE ||| _ACU_SUBMITTABLE⟩ : Entry) ∈
            (leaveScope (enterScope ts0).1 (runScopeOps ops (enterScope ts0).2)).1.stack
          ∧ (∀ (d : DelFun) (q : Nat),
              Event.rel i d q ∉
                (leaveScope (enterScope ts0).1 (runScopeOps ops (enterScope ts0).2)).2)
          ∧ (leaveScope (enterScope ts0).1 (runScopeOps ops (enterScope ts0).2)).1.stack =
              ((regList ts0.nextId ops).reverse.filter
                (fun x => decide (x.1 ∈ yldIds ops))).map
                (ledgerEntry (ts0.scopeLevel + 1) (yldIds ops)) ++ ts0.stack)) := by
  constructor
  · intro ts i u hfind htr
    have hmap : ts.stack.map (fun e =>
          if e.id = i then
            { e with scope := if e.scope > ts.scopeLevel - 1 then ts.scopeLevel - 1 else e.scope }
          else e) =
        ts.stack.map (fun e =>
          if e.id = i then { e with scope := min (ts.scopeLevel - 1) e.scope } else e) := by
      apply map_congr_mem
      intro e _
      by_cases he : e.id = i
      · have hsc : (if e.scope > ts.scopeLevel - 1 then ts.scopeLevel - 1 else e.scope) =
            min (ts.scopeLevel - 1) e.scope := by
          split <;> omega
        simp [he, hsc]
      · simp [he]
    have hg : ∀ props, capGuardAsWritten props _ACU_TRANSFERRABLE = false :=
      fun props => capGuardAsWritten_false props _ACU_TRANSFERRABLE (by decide)
    unfold acu_yield
    rw [hfind]
    simp [hg, hmap]
  · intro ts0 ops i p f hWF hops hiy hir
    obtain ⟨hev, hst, _⟩ := scope_run_spec ts0 ops hWF hops
    refine ⟨?_, ?_, hst⟩
    · rw [hst]
      apply List.mem_append_left
      have hfmem : (i, p, f) ∈ (regList ts0.nextId ops).reverse.filter
          (fun x => decide (x.1 ∈ yldIds ops)) := by
        rw [List.mem_filter]
        exact ⟨List.mem_reverse.mpr hir, by simpa using hiy⟩
      have hmem := List.mem_map_of_mem (ledgerEntry (ts0.scopeLevel + 1) (yldIds ops)) hfmem
      have hentry : ledgerEntry (ts0.scopeLevel + 1) (yldIds ops) (i, p, f) =
          (⟨i, p, some (.user f), ts0.scopeLevel,
            _ACU_TRANSFERRABLE ||| _ACU_SHAREABLE ||| _ACU_SUBMITTABLE⟩ : Entry) := by
        simp [ledgerEntry, hiy]
      rwa [hentry] at hmem
    · intro d q hq
      rw [hev] at hq
      rw [List.mem_map] at hq
      obtain ⟨x, hx, hxe⟩ := hq
      rw [List.mem_filter] at hx
      have hnot : x.1 ∉ yldIds ops := by simpa using hx.2
      injection hxe with h1 h2 h3
      exact hnot (h1 ▸ hiy)

/-- Witness for C2: a two-registration scope where the first entry is
yielded; it survives the drain at the outer level while the second entry
is released. -/
theorem yield_survives_scope_drain_witness :
    ((⟨[], none, 0, 0⟩ : ThreadState).stack.find? (fun e => decide (e.id = 0)) = none)
    ∧ opsValid 0 0 [ScopeOp.reg 3 1, ScopeOp.reg 4 2, ScopeOp.yld 0] = true
    ∧ (0 : Nat) ∈ yldIds [ScopeOp.reg 3 1, ScopeOp.reg 4 2, ScopeOp.yld 0]
    ∧ ((0 : Nat), (3 : Nat), (1 : Nat)) ∈
        regList 0 [ScopeOp.reg 3 1, ScopeOp.reg 4 2, ScopeOp.yld 0]
    ∧ (⟨0, 3, some (.user 1), 0,
          _ACU_TRANSFERRABLE ||| _ACU_SHAREABLE ||| _ACU_SUBMITTABLE⟩ : Entry) ∈
        (leaveScope (enterScope (⟨[], none, 0, 0⟩ : ThreadState)).1
          (runScopeOps [ScopeOp.reg 3 1, ScopeOp.reg 4 2, ScopeOp.yld 0]
            (enterScope (⟨[], none, 0, 0⟩ : ThreadState)).2)).1.stack
    ∧ (∀ (d : DelFun) (q : Nat),
        Event.rel 0 d q ∉
          (leaveScope (enterScope (⟨[], none, 0, 0⟩ : ThreadState)).1
            (runScopeOps [ScopeOp.reg 3 1, ScopeOp.reg 4 2, ScopeOp.yld 0]
              (enterScope (⟨[], none, 0, 0⟩ : ThreadState)).2)).2) := by
  have h := yield_survives_scope_drain.2 (⟨[], none, 0, 0⟩ : ThreadState)
    [ScopeOp.reg 3 1, ScopeOp.reg 4 2, ScopeOp.yld 0] 0 3 1
    (by decide) (by decide) (by decide) (by decide)
  exact ⟨by decide, by decide, by decide, by decide, h.1, h.2.1⟩

/-- Bracket traces for the scope protocol: `true` is a scope entry
(`BEGIN` / `BEGIN_SCOPE`), `false` a scope exit (`END` / `END_SCOPE`).
The marker recorded at entry is kept on a marker stack; an unmatched exit
drains against the empty marker (the `leave_scope(NULL)` full drain used
at thread/process teardown). -/
def runBrackets : List Bool → ThreadState × List (List Entry) →
    ThreadState × List (List Entry)
  | [], st => st
  | true :: r, (ts, ms) => runBrackets r ((enterScope ts).2, (enterScope ts).1 :: ms)
  | false :: r, (ts, m :: ms) => runBrackets r ((leaveScope m ts).1, ms)
  | false :: r, (ts, []) => runBrackets r ((leaveScope [] ts).1, [])

/-- C3: every scope entry increments `scope_level` by one and records the
current stack top as the scope's marker, every scope exit decrements it by
one, and along any bracket trace `scope_level` equals the initial level
plus the number of entries minus the number of exits — the current
nesting depth. -/
theorem scope_level_is_nesting_depth :
    (∀ ts : ThreadState, (enterScope ts).2.scopeLevel = ts.scopeLevel + 1
        ∧ (enterScope ts).1 = ts.stack)
    ∧ (∀ (marker : List Entry) (ts : ThreadState),
        (leaveScope marker ts).1.scopeLevel = ts.scopeLevel - 1)
    ∧ (∀ (bs : List Bool) (ts : ThreadState) (ms : List (List Entry)),
        (runBrackets bs (ts, ms)).1.scopeLevel =
          ts.scopeLevel + (bs.count true : Int) - (bs.count false : Int)) := by
  refine ⟨fun ts => ⟨rfl, rfl⟩, fun marker ts => rfl, ?_⟩
  intro bs
  induction bs with
  | nil => intro ts ms; simp [runBrackets]
  | cons b r ih =>
      intro ts ms
      cases b
      · have hstep : ∀ m ms', runBrackets (false :: r) (ts, m :: ms') =
            runBrackets r ((leaveScope m ts).1, ms') := fun m ms' => rfl
        have hlv : ∀ m, (leaveScope m ts).1.scopeLevel = ts.scopeLevel - 1 := fun m => rfl
        cases ms with
        | nil =>
            have : runBrackets (false :: r) (ts, []) =
                runBrackets r ((leaveScope [] ts).1, []) := rfl
            rw [this, ih, hlv]
            simp [List.count_cons]
            omega
        | cons m ms' =>
            rw [hstep m ms', ih, hlv]
            simp [List.count_cons]
            omega
      · have : runBrackets (true :: r) (ts, ms) =
            runBrackets r ((enterScope ts).2, (enterScope ts).1 :: ms) := rfl
        rw [this, ih]
        have : (enterScope ts).2.scopeLevel = ts.scopeLevel + 1 := rfl
        rw [this]
        simp [List.count_cons]
        omega

/-! ## The reference-counted shared layer

`struct _acu_shared_node` and the operations of `autocleanup.c` on it, in
the single-threaded build (`ACU_THREAD_SAFE` undefined; the thread-safe
build performs the same count arithmetic with atomic read-modify-write
operations and an optional mutex around `acu_submit_to`). -/

/-- `struct _acu_shared_node` (`acu_shared`): the base record (`ptr`,
`del`), the private cleanup stack `tail` (head = top), and the two
reference counters. -/
structure SObj where
  basePtr : Nat
  baseDel : Option DelFun
  tail : List Entry
  refcnt : Int
  weakcnt : Int
deriving DecidableEq, Repr

/-- `_acu_del_weak_ref`: decrement `weakcnt`; on reaching zero free the
shared record (`none`). -/
def _acu_del_weak_ref (s : SObj) : Option SObj × List Event :=
  if s.weakcnt - 1 = 0 then (none, [.freeShared])
  else (some { s with weakcnt := s.weakcnt - 1 }, [])

/-- `_acu_del_strong_ref`: decrement `refcnt`; on reaching zero drain the
private stack (`_acu_cleanup(NULL, &s->tail, 0)`), invoke the base release
(when non-`NULL`), then release the implicit weak slot via
`_acu_del_weak_ref`. -/
def _acu_del_strong_ref (s : SObj) : Option SObj × List Event :=
  if s.refcnt - 1 = 0 then
    let r := _acu_cleanup_seg 0 s.tail
    let bev : List Event :=
      match s.baseDel with
      | some d => [.baseRel d s.basePtr]
      | none => []
    let w := _acu_del_weak_ref { s with refcnt := 0, tail := r.1 }
    (w.1, r.2 ++ bev ++ w.2)
  else (some { s with refcnt := s.refcnt - 1 }, [])

/-- `acu_share`: the capability guard as written (which never fires),
then allocate the shared node seeded with the entry's base record and
`refcnt = weakcnt = 1`, and rewrite the entry into a strong forward
reference (`u->base.ptr = s; u->base.del = _acu_del_strong_ref;`).
`sAddr` is the address `calloc_t` hands the shared node.  Note that
`_acu_latest` is not touched. -/
def acu_share (i : Nat) (sAddr : Nat) (ts : ThreadState) :
    Except String (ThreadState × SObj) :=
  match ts.stack.find? (fun e => decide (e.id = i)) with
  | none => .error "invalid unique pointer"
  | some u =>
      if capGuardAsWritten u.properties _ACU_SHAREABLE then
        .error "acu_share: not shareable"
      else
        .ok ({ ts with stack := ts.stack.map (fun e =>
            if e.id = i then { e with ptr := sAddr, del := some .strongRef } else e) },
          { basePtr := u.ptr, baseDel := u.del, tail := [], refcnt := 1, weakcnt := 1 })

/-- `acu_new_reference`: a new strong forward node on the main stack,
then `if (s->refcnt == 0) s->weakcnt++; s->refcnt++;`. -/
def acu_new_reference (sAddr : Nat) (ts : ThreadState) (s : SObj) :
    (Entry × ThreadState) × SObj :=
  (acu_new_unique sAddr (some .strongRef) ts,
   { s with
       refcnt := s.refcnt + 1
       weakcnt := if s.refcnt = 0 then s.weakcnt + 1 else s.weakcnt })

/-- `u->properties &= ~mask;` — clearing the bits of `mask` amounts to
subtracting the common bits. -/
def clearProps (e : Entry) (mask : Nat) : Entry :=
  { e with properties := e.properties - (e.properties &&& mask) }

/-- `acu_new_weak_reference`: a new weak forward node on the main stack
with the shareable and submittable capabilities cleared, and
`s->weakcnt++`. -/
def acu_new_weak_reference (sAddr : Nat) (ts : ThreadState) (s : SObj) :
    (Entry × ThreadState) × SObj :=
  let r := acu_new_unique sAddr (some .weakRef) ts
  ((clearProps r.1 (_ACU_SUBMITTABLE ||| _ACU_SHAREABLE),
    { r.2 with stack := r.2.stack.map (fun e =>
        if e.id = r.1.id then clearProps e (_ACU_SUBMITTABLE ||| _ACU_SHAREABLE) else e) }),
   { s with weakcnt := s.weakcnt + 1 })

/-- `acu_lock_reference` (single-threaded build), with its `BEGIN` /
`acu_return` bracket discipline: reject a non-weak argument; test the
pre-increment `refcnt` — zero means the object is expired, the counter is
put back to zero and `NULL` is returned; otherwise create a strong
forward node, clear its shareable/submittable capabilities, `acu_yield`
it and return it through `acu_return`.  (`calloc_t` never fails in the
model, so the `CATCH` branch that undoes the increment is unreachable.)
Returns `(returned node or NULL, thread state, shared node)` plus the
events of the bracket drain. -/
def acu_lock_reference (wId : Nat) (ts : ThreadState) (s : SObj) :
    Except String ((Option Nat × ThreadState × SObj) × List Event) :=
  match ts.stack.find? (fun e => decide (e.id = wId)) with
  | none => .error "acu_get_strong_reference: argument not a weakptr"
  | some w =>
      if w.del ≠ some .weakRef then
        .error "acu_get_strong_reference: argument not a weakptr"
      else
        let m := (enterScope ts).1
        let ts1 := (enterScope ts).2
        if s.refcnt = 0 then
          let r := leaveScope m ts1
          .ok ((none, r.1, { s with refcnt := 0 }), r.2)
        else
          let u := (acu_new_unique w.ptr (some .strongRef) ts1).1
          let ts2 := (acu_new_unique w.ptr (some .strongRef) ts1).2
          let ts3 := { ts2 with stack := ts2.stack.map (fun e =>
              if e.id = u.id then clearProps e (_ACU_SUBMITTABLE ||| _ACU_SHAREABLE) else e) }
          match acu_yield u.id ts3 with
          | .error msg => .error msg
          | .ok ts4 =>
              let r := leaveScope m ts4
              .ok ((some u.id, r.1, { s with refcnt := s.refcnt + 1 }), r.2)

/-! ## Reference-count traces

For the counting claims, the operations on one shared object are run as a
trace.  `RCState` carries, besides the object, the ghost numbers of
outstanding strong and weak forward references; a step is only possible
when the caller can actually hold the reference being dropped or some
reference to the object being used (`none` = impossible step). -/

/-- One operation on a shared object: create a strong / weak reference,
drop one (running `_acu_del_strong_ref` / `_acu_del_weak_ref`), or attempt
a weak-to-strong promotion (`acu_lock_reference`, counts only). -/
inductive RCOp
  | newStrong
  | newWeak
  | dropStrong
  | dropWeak
  | lock
deriving DecidableEq, Repr

/-- Shared object (or `none` once freed) plus ghost counts of outstanding
strong and weak forward references. -/
structure RCState where
  obj : Option SObj
  strong : Nat
  weak : Nat
deriving DecidableEq, Repr

/-- One trace step.  `newStrong`/`newWeak`/`lock` require the object to be
alive and some reference to be held; `dropStrong`/`dropWeak` require an
outstanding reference of that kind.  The count arithmetic is that of
`acu_new_reference`, `acu_new_weak_reference`, `_acu_del_strong_ref`,
`_acu_del_weak_ref` and `acu_lock_reference`. -/
def RCStep : RCOp → RCState → Option (RCState × List Event)
  | .newStrong, st =>
      match st.obj with
      | none => none
      | some s =>
          if st.strong + st.weak = 0 then none
          else some ({ obj := some { s with
                          refcnt := s.refcnt + 1
                          weakcnt := if s.refcnt = 0 then s.weakcnt + 1 else s.weakcnt }
                       strong := st.strong + 1
                       weak := st.weak }, [])
  | .newWeak, st =>
      match st.obj with
      | none => none
      | some s =>
          if st.strong + st.weak = 0 then none
          else some ({ obj := some { s with weakcnt := s.weakcnt + 1 }
                       strong := st.strong
                       weak := st.weak + 1 }, [])
  | .dropStrong, st =>
      match st.obj, st.strong with
      | some s, n + 1 =>
          some ({ obj := (_acu_del_strong_ref s).1, strong := n, weak := st.weak },
            (_acu_del_strong_ref s).2)
      | _, _ => none
  | .dropWeak, st =>
      match st.obj, st.weak with
      | some s, n + 1 =>
          some ({ obj := (_acu_del_weak_ref s).1, strong := st.strong, weak := n },
            (_acu_del_weak_ref s).2)
      | _, _ => none
  | .lock, st =>
      match st.obj with
      | none => none
      | some s =>
          if st.weak = 0 then none
          else if s.refcnt = 0 then
            some ({ obj := some { s with refcnt := 0 }, strong := st.strong, weak := st.weak }, [])
          else
            some ({ obj := some { s with refcnt := s.refcnt + 1 }
                    strong := st.strong + 1
                    weak := st.weak }, [])

/-- Run a trace, accumulating events. -/
def RCRun : List RCOp → RCState → Option (RCState × List Event)
  | [], st => some (st, [])
  | op :: ops, st =>
      match RCStep op st with
      | none => none
      | some r =>
          match RCRun ops r.1 with
          | none => none
          | some rf => some (rf.1, r.2 ++ rf.2)

/-- Well-formedness of a trace state: the counters of the object agree
with the outstanding references, `weakcnt` additionally counting the
implicit weak slot kept alive by the strong side while `strong > 0`; a
live object always has `weakcnt > 0`; a freed object has no outstanding
references. -/
def rcWF (st : RCState) : Bool :=
  match st.obj with
  | none => st.strong == 0 && st.weak == 0
  | some s =>
      (s.refcnt == (st.strong : Int))
      && (s.weakcnt == (st.weak : Int) + (if 0 < st.strong then 1 else 0))
      && (0 < s.weakcnt)

/-- `newStrong` never occurs on a strong count that has already dropped
to zero anywhere along the trace (the documented `Live` state machine;
the undocumented resurrection path of `acu_new_reference` is excluded). -/
def noResurrect : List RCOp → RCState → Bool
  | [], _ => true
  | op :: ops, st =>
      (match op with
       | .newStrong => decide (0 < st.strong)
       | _ => true)
      && (match RCStep op st with
          | some r => noResurrect ops r.1
          | none => true)

/-- Number of base-release invocations (`(s->base.del)(s->base.ptr)`)
among the events. -/
def countBase : List Event → Nat
  | [] => 0
  | .baseRel _ _ :: evs => countBase evs + 1
  | _ :: evs => countBase evs

theorem countBase_append : ∀ (a b : List Event),
    countBase (a ++ b) = countBase a + countBase b
  | [], b => by simp [countBase]
  | e :: a, b => by
      cases e <;> simp [countBase, countBase_append a b] ; omega

theorem countBase_releaseEvents : ∀ (l : List Entry),
    countBase (releaseEvents l) = 0
  | [] => rfl
  | e :: l => by
      cases he : e.del <;>
        simp [releaseEvents, destructEvents, he, countBase, countBase_append,
          countBase_releaseEvents l]

/-- `_acu_del_strong_ref` on the last strong reference: drain the private
stack (releasing its entries of positive scope, keeping the others),
invoke the base release, release the implicit weak slot. -/
theorem del_strong_eq_death (s : SObj) (hd : s.refcnt - 1 = 0) :
    _acu_del_strong_ref s =
      ((_acu_del_weak_ref { s with
          refcnt := 0
          tail := s.tail.filter (fun e => decide (e.scope ≤ 0)) }).1,
        releaseEvents (s.tail.filter (fun e => decide (0 < e.scope)))
          ++ (match s.baseDel with
              | some d => [Event.baseRel d s.basePtr]
              | none => [])
          ++ (_acu_del_weak_ref { s with
              refcnt := 0
              tail := s.tail.filter (fun e => decide (e.scope ≤ 0)) }).2) := by
  unfold _acu_del_strong_ref
  rw [if_pos hd]
  simp only [cleanup_seg_spec]

/-- `_acu_del_strong_ref` while other strong references remain: only the
counter moves. -/
theorem del_strong_eq_live (s : SObj) (hd : ¬ (s.refcnt - 1 = 0)) :
    _acu_del_strong_ref s = (some { s with refcnt := s.refcnt - 1 }, []) := by
  unfold _acu_del_strong_ref
  rw [if_neg hd]

/-- Per-step accounting: a valid step (with `newStrong` restricted to a
live strong side) preserves well-formedness and the presence of the base
destructor, and emits a base release exactly when the strong side drops
from positive to zero. -/
theorem rcstep_base_count (op : RCOp) (st : RCState) (r : RCState × List Event)
    (hWF : rcWF st = true)
    (hDel : ∀ s, st.obj = some s → ∃ f, s.baseDel = some (.user f))
    (hNR : op = .newStrong → 0 < st.strong)
    (hstep : RCStep op st = some r) :
    countBase r.2 + (if r.1.strong = 0 then 0 else 1) =
        (if st.strong = 0 then 0 else 1)
      ∧ rcWF r.1 = true
      ∧ (∀ s, r.1.obj = some s → ∃ f, s.baseDel = some (.user f)) := by
  obtain ⟨obj, stg, wk⟩ := st
  cases op
  case newStrong =>
      cases obj with
      | none => simp [RCStep] at hstep
      | some s =>
          have hpos : 0 < stg := hNR rfl
          simp only [RCStep] at hstep
          rw [if_neg (by omega : ¬ (stg + wk = 0))] at hstep
          simp only [Option.some.injEq] at hstep
          subst hstep
          simp only [rcWF, Bool.and_eq_true, beq_iff_eq, decide_eq_true_eq] at hWF
          obtain ⟨⟨hr, hw⟩, hwpos⟩ := hWF
          rw [if_pos hpos] at hw
          have hrne : ¬ (s.refcnt = 0) := by omega
          refine ⟨?_, ?_, ?_⟩
          · show countBase [] + (if stg + 1 = 0 then 0 else 1) = (if stg = 0 then 0 else 1)
            rw [if_neg (by omega : ¬ (stg + 1 = 0)), if_neg (by omega : ¬ (stg = 0))]
            rfl
          · simp only [rcWF, Bool.and_eq_true, beq_iff_eq, decide_eq_true_eq]
            refine ⟨⟨?_, ?_⟩, ?_⟩
            · show s.refcnt + 1 = ((stg + 1 : Nat) : Int)
              omega
            · show (if s.refcnt = 0 then s.weakcnt + 1 else s.weakcnt) =
                (wk : Int) + (if 0 < stg + 1 then 1 else 0)
              rw [if_neg hrne, if_pos (Nat.succ_pos stg)]
              omega
            · show (0 : Int) < (if s.refcnt = 0 then s.weakcnt + 1 else s.weakcnt)
              rw [if_neg hrne]
              exact hwpos
          · intro s' hs'
            simp only [Option.some.injEq] at hs'
            obtain ⟨f, hf⟩ := hDel s rfl
            exact ⟨f, by rw [← hs']; exact hf⟩
  case newWeak =>
      cases obj with
      | none => simp [RCStep] at hstep
      | some s =>
          simp only [RCStep] at hstep
          by_cases hz : stg + wk = 0
          · rw [if_pos hz] at hstep; cases hstep
          · rw [if_neg hz] at hstep
            simp only [Option.some.injEq] at hstep
            subst hstep
            simp only [rcWF, Bool.and_eq_true, beq_iff_eq, decide_eq_true_eq] at hWF
            obtain ⟨⟨hr, hw⟩, hwpos⟩ := hWF
            refine ⟨?_, ?_, ?_⟩
            · show countBase [] + (if stg = 0 then 0 else 1) = (if stg = 0 then 0 else 1)
              simp [countBase]
            · simp only [rcWF, Bool.and_eq_true, beq_iff_eq, decide_eq_true_eq]
              refine ⟨⟨hr, ?_⟩, ?_⟩
              · show s.weakcnt + 1 = ((wk + 1 : Nat) : Int) + (if 0 < stg then 1 else 0)
                split_ifs at hw ⊢ with h1
                · omega
                · omega
              · show (0 : Int) < s.weakcnt + 1
                omega
            · intro s' hs'
              simp only [Option.some.injEq] at hs'
              obtain ⟨f, hf⟩ := hDel s rfl
              exact ⟨f, by rw [← hs']; exact hf⟩
  case dropStrong =>
      cases obj with
      | none => simp [RCStep] at hstep
      | some s =>
          cases stg with
          | zero => simp [RCStep] at hstep
          | succ n =>
              simp only [RCStep, Option.some.injEq] at hstep
              subst hstep
              simp only [rcWF, Bool.and_eq_true, beq_iff_eq, decide_eq_true_eq] at hWF
              obtain ⟨⟨hr, hw⟩, hwpos⟩ := hWF
              rw [if_pos (Nat.succ_pos n)] at hw
              obtain ⟨f, hf⟩ := hDel s rfl
              by_cases hdeath : s.refcnt - 1 = 0
              · have hn : n = 0 := by omega
                subst hn
                rw [del_strong_eq_death s hdeath]
                unfold _acu_del_weak_ref
                by_cases hfree : s.weakcnt - 1 = 0
                · rw [if_pos hfree]
                  have hwk : wk = 0 := by omega
                  subst hwk
                  refine ⟨?_, by simp [rcWF], by simp⟩
                  show countBase (releaseEvents _ ++ _ ++ [Event.freeShared]) +
                      (if 0 = 0 then 0 else 1) = (if 0 + 1 = 0 then 0 else 1)
                  rw [hf]
                  simp [countBase_append, countBase_releaseEvents, countBase]
                · rw [if_neg hfree]
                  refine ⟨?_, ?_, ?_⟩
                  · show countBase (releaseEvents _ ++ _ ++ []) +
                        (if 0 = 0 then 0 else 1) = (if 0 + 1 = 0 then 0 else 1)
                    rw [hf]
                    simp [countBase_append, countBase_releaseEvents, countBase]
                  · simp only [rcWF, Bool.and_eq_true, beq_iff_eq, decide_eq_true_eq]
                    refine ⟨⟨?_, ?_⟩, ?_⟩
                    · show (0 : Int) = ((0 : Nat) : Int)
                      simp
                    · show s.weakcnt - 1 = (wk : Int) + (if 0 < 0 then 1 else 0)
                      rw [if_neg (by omega : ¬ (0 < 0))]
                      omega
                    · show (0 : Int) < s.weakcnt - 1
                      omega
                  · intro s' hs'
                    simp only [Option.some.injEq] at hs'
                    exact ⟨f, by rw [← hs']; exact hf⟩
              · rw [del_strong_eq_live s hdeath]
                have hn : 0 < n := by omega
                refine ⟨?_, ?_, ?_⟩
                · show countBase [] + (if n = 0 then 0 else 1) = (if n + 1 = 0 then 0 else 1)
                  rw [if_neg (by omega : ¬ (n = 0)), if_neg (by omega : ¬ (n + 1 = 0))]
                  rfl
                · simp only [rcWF, Bool.and_eq_true, beq_iff_eq, decide_eq_true_eq]
                  refine ⟨⟨?_, ?_⟩, ?_⟩
                  · show s.refcnt - 1 = ((n : Nat) : Int)
                    omega
                  · show s.weakcnt = (wk : Int) + (if 0 < n then 1 else 0)
                    rw [if_pos hn]
                    omega
                  · show (0 : Int) < s.weakcnt
                    omega
                · intro s' hs'
                  simp only [Option.some.injEq] at hs'
                  exact ⟨f, by rw [← hs']; exact hf⟩
  case dropWeak =>
      cases obj with
      | none => simp [RCStep] at hstep
      | some s =>
          cases wk with
          | zero => simp [RCStep] at hstep
          | succ n =>
              simp only [RCStep, Option.some.injEq] at hstep
              subst hstep
              simp only [rcWF, Bool.and_eq_true, beq_iff_eq, decide_eq_true_eq] at hWF
              obtain ⟨⟨hr, hw⟩, hwpos⟩ := hWF
              unfold _acu_del_weak_ref
              by_cases hfree : s.weakcnt - 1 = 0
              · rw [if_pos hfree]
                have hslot : stg = 0 ∧ n = 0 := by
                  split_ifs at hw with h1
                  · omega
                  · refine ⟨by omega, by omega⟩
                obtain ⟨h1, h2⟩ := hslot
                subst h1; subst h2
                exact ⟨by simp [countBase], by simp [rcWF], by simp⟩
              · rw [if_neg hfree]
                refine ⟨?_, ?_, ?_⟩
                · show countBase [] + (if stg = 0 then 0 else 1) = (if stg = 0 then 0 else 1)
                  simp [countBase]
                · simp only [rcWF, Bool.and_eq_true, beq_iff_eq, decide_eq_true_eq]
                  refine ⟨⟨hr, ?_⟩, ?_⟩
                  · show s.weakcnt - 1 = (n : Int) + (if 0 < stg then 1 else 0)
                    split_ifs at hw ⊢ with h1
                    · omega
                    · omega
                  · show (0 : Int) < s.weakcnt - 1
                    omega
                · intro s' hs'
                  simp only [Option.some.injEq] at hs'
                  obtain ⟨f, hf⟩ := hDel s rfl
                  exact ⟨f, by rw [← hs']; exact hf⟩
  case lock =>
      cases obj with
      | none => simp [RCStep] at hstep
      | some s =>
          simp only [RCStep] at hstep
          by_cases hwz : wk = 0
          · rw [if_pos hwz] at hstep; cases hstep
          · rw [if_neg hwz] at hstep
            simp only [rcWF, Bool.and_eq_true, beq_iff_eq, decide_eq_true_eq] at hWF
            obtain ⟨⟨hr, hw⟩, hwpos⟩ := hWF
            by_cases hz : s.refcnt = 0
            · rw [if_pos hz] at hstep
              simp only [Option.some.injEq] at hstep
              subst hstep
              refine ⟨?_, ?_, ?_⟩
              · show countBase [] + (if stg = 0 then 0 else 1) = (if stg = 0 then 0 else 1)
                simp [countBase]
              · simp only [rcWF, Bool.and_eq_true, beq_iff_eq, decide_eq_true_eq]
                refine ⟨⟨?_, ?_⟩, ?_⟩
                · show (0 : Int) = (stg : Int)
                  omega
                · show s.weakcnt = (wk : Int) + (if 0 < stg then 1 else 0)
                  exact hw
                · show (0 : Int) < s.weakcnt
                  omega
              · intro s' hs'
                simp only [Option.some.injEq] at hs'
                obtain ⟨f, hf⟩ := hDel s rfl
                exact ⟨f, by rw [← hs']; exact hf⟩
            · rw [if_neg hz] at hstep
              simp only [Option.some.injEq] at hstep
              subst hstep
              have hstg : 0 < stg := by omega
              rw [if_pos hstg] at hw
              refine ⟨?_, ?_, ?_⟩
              · show countBase [] + (if stg + 1 = 0 then 0 else 1) = (if stg = 0 then 0 else 1)
                rw [if_neg (by omega : ¬ (stg + 1 = 0)), if_neg (by omega : ¬ (stg = 0))]
                rfl
              · simp only [rcWF, Bool.and_eq_true, beq_iff_eq, decide_eq_true_eq]
                refine ⟨⟨?_, ?_⟩, ?_⟩
                · show s.refcnt + 1 = ((stg + 1 : Nat) : Int)
                  omega
                · show s.weakcnt = (wk : Int) + (if 0 < stg + 1 then 1 else 0)
                  rw [if_pos (Nat.succ_pos stg)]
                  omega
                · show (0 : Int) < s.weakcnt
                  omega
              · intro s' hs'
                simp only [Option.some.injEq] at hs'
                obtain ⟨f, hf⟩ := hDel s rfl
                exact ⟨f, by rw [← hs']; exact hf⟩

/-- Well-formedness is preserved by every possible step, including the
resurrection path of `acu_new_reference` (pre-increment strong count
zero), which re-arms the implicit weak slot. -/
theorem rcstep_preserves_wf (op : RCOp) (st : RCState) (r : RCState × List Event)
    (hWF : rcWF st = true) (hstep : RCStep op st = some r) : rcWF r.1 = true := by
  obtain ⟨obj, stg, wk⟩ := st
  cases op
  case newStrong =>
      cases obj with
      | none => simp [RCStep] at hstep
      | some s =>
          simp only [RCStep] at hstep
          by_cases hz : stg + wk = 0
          · rw [if_pos hz] at hstep; cases hstep
          · rw [if_neg hz] at hstep
            simp only [Option.some.injEq] at hstep
            subst hstep
            simp only [rcWF, Bool.and_eq_true, beq_iff_eq, decide_eq_true_eq] at hWF ⊢
            obtain ⟨⟨hr, hw⟩, hwpos⟩ := hWF
            by_cases hrz : s.refcnt = 0
            · have hstg : stg = 0 := by omega
              subst hstg
              rw [if_neg (by omega : ¬ (0 < 0))] at hw
              refine ⟨⟨?_, ?_⟩, ?_⟩
              · show s.refcnt + 1 = ((0 + 1 : Nat) : Int)
                omega
              · show (if s.refcnt = 0 then s.weakcnt + 1 else s.weakcnt) =
                  (wk : Int) + (if 0 < 0 + 1 then 1 else 0)
                rw [if_pos hrz, if_pos (by omega : 0 < 0 + 1)]
                omega
              · show (0 : Int) < (if s.refcnt = 0 then s.weakcnt + 1 else s.weakcnt)
                rw [if_pos hrz]
                omega
            · have hstg : 0 < stg := by omega
              rw [if_pos hstg] at hw
              refine ⟨⟨?_, ?_⟩, ?_⟩
              · show s.refcnt + 1 = ((stg + 1 : Nat) : Int)
                omega
              · show (if s.refcnt = 0 then s.weakcnt + 1 else s.weakcnt) =
                  (wk : Int) + (if 0 < stg + 1 then 1 else 0)
                rw [if_neg hrz, if_pos (Nat.succ_pos stg)]
                omega
              · show (0 : Int) < (if s.refcnt = 0 then s.weakcnt + 1 else s.weakcnt)
                rw [if_neg hrz]
                omega
  case newWeak =>
      cases obj with
      | none => simp [RCStep] at hstep
      | some s =>
          simp only [RCStep] at hstep
          by_cases hz : stg + wk = 0
          · rw [if_pos hz] at hstep; cases hstep
          · rw [if_neg hz] at hstep
            simp only [Option.some.injEq] at hstep
            subst hstep
            simp only [rcWF, Bool.and_eq_true, beq_iff_eq, decide_eq_true_eq] at hWF ⊢
            obtain ⟨⟨hr, hw⟩, hwpos⟩ := hWF
            refine ⟨⟨hr, ?_⟩, by omega⟩
            show s.weakcnt + 1 = ((wk + 1 : Nat) : Int) + (if 0 < stg then 1 else 0)
            split_ifs at hw ⊢ <;> omega
  case dropStrong =>
      cases obj with
      | none => simp [RCStep] at hstep
      | some s =>
          cases stg with
          | zero => simp [RCStep] at hstep
          | succ n =>
              simp only [RCStep, Option.some.injEq] at hstep
              subst hstep
              simp only [rcWF, Bool.and_eq_true, beq_iff_eq, decide_eq_true_eq] at hWF
              obtain ⟨⟨hr, hw⟩, hwpos⟩ := hWF
              rw [if_pos (Nat.succ_pos n)] at hw
              by_cases hdeath : s.refcnt - 1 = 0
              · have hn : n = 0 := by omega
                subst hn
                rw [del_strong_eq_death s hdeath]
                unfold _acu_del_weak_ref
                by_cases hfree : s.weakcnt - 1 = 0
                · rw [if_pos hfree]
                  have hwk : wk = 0 := by omega
                  subst hwk
                  simp [rcWF]
                · rw [if_neg hfree]
                  simp only [rcWF, Bool.and_eq_true, beq_iff_eq, decide_eq_true_eq]
                  refine ⟨⟨by simp, ?_⟩, ?_⟩
                  · show s.weakcnt - 1 = (wk : Int) + (if 0 < 0 then 1 else 0)
                    rw [if_neg (by omega : ¬ (0 < 0))]
                    omega
                  · show (0 : Int) < s.weakcnt - 1
                    omega
              · rw [del_strong_eq_live s hdeath]
                have hn : 0 < n := by omega
                simp only [rcWF, Bool.and_eq_true, beq_iff_eq, decide_eq_true_eq]
                refine ⟨⟨by push_cast at hr ⊢; omega, ?_⟩, by omega⟩
                show s.weakcnt = (wk : Int) + (if 0 < n then 1 else 0)
                rw [if_pos hn]
                omega
  case dropWeak =>
      cases obj with
      | none => simp [RCStep] at hstep
      | some s =>
          cases wk with
          | zero => simp [RCStep] at hstep
          | succ n =>
              simp only [RCStep, Option.some.injEq] at hstep
              subst hstep
              simp only [rcWF, Bool.and_eq_true, beq_iff_eq, decide_eq_true_eq] at hWF
              obtain ⟨⟨hr, hw⟩, hwpos⟩ := hWF
              unfold _acu_del_weak_ref
              by_cases hfree : s.weakcnt - 1 = 0
              · rw [if_pos hfree]
                have hslot : stg = 0 ∧ n = 0 := by
                  split_ifs at hw <;> constructor <;> omega
                obtain ⟨h1, h2⟩ := hslot
                subst h1; subst h2
                simp [rcWF]
              · rw [if_neg hfree]
                simp only [rcWF, Bool.and_eq_true, beq_iff_eq, decide_eq_true_eq]
                refine ⟨⟨hr, ?_⟩, ?_⟩
                · show s.weakcnt - 1 = (n : Int) + (if 0 < stg then 1 else 0)
                  split_ifs at hw ⊢ <;> omega
                · show (0 : Int) < s.weakcnt - 1
                  omega
  case lock =>
      cases obj with
      | none => simp [RCStep] at hstep
      | some s =>
          simp only [RCStep] at hstep
          by_cases hwz : wk = 0
          · rw [if_pos hwz] at hstep; cases hstep
          · rw [if_neg hwz] at hstep
            simp only [rcWF, Bool.and_eq_true, beq_iff_eq, decide_eq_true_eq] at hWF
            obtain ⟨⟨hr, hw⟩, hwpos⟩ := hWF
            by_cases hz : s.refcnt = 0
            · rw [if_pos hz] at hstep
              simp only [Option.some.injEq] at hstep
              subst hstep
              simp only [rcWF, Bool.and_eq_true, beq_iff_eq, decide_eq_true_eq]
              exact ⟨⟨by omega, hw⟩, by omega⟩
            · rw [if_neg hz] at hstep
              simp only [Option.some.injEq] at hstep
              subst hstep
              have hstg : 0 < stg := by omega
              rw [if_pos hstg] at hw
              simp only [rcWF, Bool.and_eq_true, beq_iff_eq, decide_eq_true_eq]
              refine ⟨⟨by push_cast at hr ⊢; omega, ?_⟩, by omega⟩
              show s.weakcnt = (wk : Int) + (if 0 < stg + 1 then 1 else 0)
              rw [if_pos (Nat.succ_pos stg)]
              omega

/-- Trace-level accounting: along any possible trace that never creates a
strong reference from a dead strong side, a well-formed start with a real
base destructor sees exactly one base release if its strong side ends at
zero, none otherwise; well-formedness is preserved throughout. -/
theorem rcrun_base_count :
    ∀ (ops : List RCOp) (st : RCState) (rf : RCState × List Event),
      rcWF st = true →
      (∀ s, st.obj = some s → ∃ f, s.baseDel = some (.user f)) →
      noResurrect ops st = true →
      RCRun ops st = some rf →
      countBase rf.2 + (if rf.1.strong = 0 then 0 else 1) =
          (if st.strong = 0 then 0 else 1)
        ∧ rcWF rf.1 = true
  | [], st, rf, hWF, _, _, hrun => by
      simp only [RCRun, Option.some.injEq] at hrun
      subst hrun
      exact ⟨by simp [countBase], hWF⟩
  | op :: ops, st, rf, hWF, hDel, hNR, hrun => by
      cases hstep : RCStep op st with
      | none => simp only [RCRun, hstep] at hrun; cases hrun
      | some r =>
          simp only [RCRun, hstep] at hrun
          cases hrest : RCRun ops r.1 with
          | none => rw [hrest] at hrun; cases hrun
          | some rf' =>
              rw [hrest] at hrun
              simp only [Option.some.injEq] at hrun
              subst hrun
              simp only [noResurrect, Bool.and_eq_true, hstep] at hNR
              obtain ⟨hnr1, hnr2⟩ := hNR
              have hop : op = .newStrong → 0 < st.strong := by
                intro he; subst he; simpa using hnr1
              obtain ⟨hc, hwf', hdel'⟩ := rcstep_base_count op st r hWF hDel hop hstep
              obtain ⟨hc2, hwf2⟩ := rcrun_base_count ops r.1 rf' hwf' hdel' hnr2 hrest
              refine ⟨?_, hwf2⟩
              rw [countBase_append]
              generalize hA : (if st.strong = 0 then (0 : Nat) else 1) = A at hc ⊢
              generalize hB : (if r.1.strong = 0 then (0 : Nat) else 1) = B at hc hc2
              generalize hC : (if rf'.1.strong = 0 then (0 : Nat) else 1) = C at hc2 ⊢
              omega

/-- C5: the invariant `weak_count ≥ 1` whenever `strong_count > 0`.
`acu_share` initializes both counters to 1 (a well-formed trace state);
`acu_new_reference` re-increments `weakcnt` exactly when it observes a
pre-increment strong count of zero; every well-formed state satisfies the
predicate; and every possible operation (`newStrong` including the re-arm
path, `newWeak`, `lock`, strong release, weak release) preserves
well-formedness. -/
theorem weak_count_covers_strong_count :
    (∀ (i sAddr : Nat) (ts ts' : ThreadState) (s : SObj),
        acu_share i sAddr ts = .ok (ts', s) →
        s.refcnt = 1 ∧ s.weakcnt = 1 ∧ rcWF ⟨some s, 1, 0⟩ = true)
    ∧ (∀ (sAddr : Nat) (ts : ThreadState) (s : SObj), s.refcnt = 0 →
        ((acu_new_reference sAddr ts s).2).weakcnt = s.weakcnt + 1
          ∧ ((acu_new_reference sAddr ts s).2).refcnt = s.refcnt + 1)
    ∧ (∀ st : RCState, rcWF st = true →
        ∀ s, st.obj = some s → 0 < s.refcnt → 1 ≤ s.weakcnt)
    ∧ (∀ (op : RCOp) (st : RCState) (r : RCState × List Event),
        rcWF st = true → RCStep op st = some r → rcWF r.1 = true) := by
  refine ⟨?_, ?_, ?_, rcstep_preserves_wf⟩
  · intro i sAddr ts ts' s hsh
    have hg : ∀ props, capGuardAsWritten props _ACU_SHAREABLE = false :=
      fun props => capGuardAsWritten_false props _ACU_SHAREABLE (by decide)
    cases hfind : ts.stack.find? (fun e => decide (e.id = i)) with
    | none =>
        simp only [acu_share, hfind] at hsh
        exact Except.noConfusion hsh
    | some u =>
        simp only [acu_share, hfind, hg, Bool.false_eq_true, if_false,
          Except.ok.injEq, Prod.mk.injEq] at hsh
        obtain ⟨_, hs⟩ := hsh
        subst hs
        exact ⟨rfl, rfl, by simp [rcWF]⟩
  · intro sAddr ts s h0
    simp [acu_new_reference, h0]
  · intro st hwf s hobj hpos
    obtain ⟨obj, stg, wk⟩ := st
    simp only at hobj
    subst hobj
    simp only [rcWF, Bool.and_eq_true, beq_iff_eq, decide_eq_true_eq] at hwf
    obtain ⟨⟨hr, hw⟩, hwpos⟩ := hwf
    omega

/-- Witness for C5: the share state is well-formed and a `newWeak` step
from it preserves well-formedness. -/
theorem weak_count_covers_strong_count_witness :
    rcWF ⟨some ⟨7, some (.user 3), [], 1, 1⟩, 1, 0⟩ = true
    ∧ RCStep .newWeak ⟨some ⟨7, some (.user 3), [], 1, 1⟩, 1, 0⟩ =
        some (⟨some ⟨7, some (.user 3), [], 1, 2⟩, 1, 1⟩, [])
    ∧ rcWF ⟨some ⟨7, some (.user 3), [], 1, 2⟩, 1, 1⟩ = true :=
  ⟨by decide, by decide,
    weak_count_covers_strong_count.2.2.2 .newWeak
      ⟨some ⟨7, some (.user 3), [], 1, 1⟩, 1, 0⟩
      (⟨some ⟨7, some (.user 3), [], 1, 2⟩, 1, 1⟩, [])
      (by decide) (by decide)⟩

/-- C4: starting from a freshly shared object (base release `f`, any
private stack contents), along every possible trace of reference
operations that keeps to the documented `Live → StrongZero → Dead`
protocol, the base release is invoked exactly once if the strong side
ends at zero and never otherwise (in particular weak-reference creation
and destruction alone never invoke it); the record is freed exactly when
both sides reach zero; and on the death step the private stack is drained
(its positive-scope entries released) before the base release fires. -/
theorem shared_release_exactly_once
    (p f : Nat) (tail : List Entry) (ops : List RCOp) (rf : RCState × List Event)
    (hNR : noResurrect ops ⟨some ⟨p, some (.user f), tail, 1, 1⟩, 1, 0⟩ = true)
    (hrun : RCRun ops ⟨some ⟨p, some (.user f), tail, 1, 1⟩, 1, 0⟩ = some rf) :
    (countBase rf.2 = if rf.1.strong = 0 then 1 else 0)
    ∧ rcWF rf.1 = true
    ∧ (rf.1.obj = none ↔ (rf.1.strong = 0 ∧ rf.1.weak = 0))
    ∧ (∀ s : SObj, s.refcnt = 1 → s.baseDel = some (.user f) →
        (_acu_del_strong_ref s).2 =
          releaseEvents (s.tail.filter (fun e => decide (0 < e.scope)))
            ++ [Event.baseRel (.user f) s.basePtr]
            ++ (_acu_del_weak_ref { s with
                refcnt := 0
                tail := s.tail.filter (fun e => decide (e.scope ≤ 0)) }).2) := by
  have hwf0 : rcWF ⟨some ⟨p, some (.user f), tail, 1, 1⟩, 1, 0⟩ = true := by
    simp [rcWF]
  have hdel0 : ∀ s, (⟨some ⟨p, some (.user f), tail, 1, 1⟩, 1, 0⟩ : RCState).obj = some s →
      ∃ g, s.baseDel = some (.user g) := by
    intro s hs
    simp only [Option.some.injEq] at hs
    exact ⟨f, by rw [← hs]⟩
  obtain ⟨hc, hwf⟩ := rcrun_base_count ops _ rf hwf0 hdel0 hNR hrun
  rw [if_neg (by simp : ¬ ((⟨some ⟨p, some (.user f), tail, 1, 1⟩, 1, 0⟩ : RCState).strong = 0))]
    at hc
  refine ⟨?_, hwf, ?_, ?_⟩
  · by_cases hz : rf.1.strong = 0
    · rw [if_pos hz] at hc ⊢; omega
    · rw [if_neg hz] at hc ⊢; omega
  · cases hob : rf.1.obj with
    | none =>
        simp only [rcWF, hob, Bool.and_eq_true, beq_iff_eq] at hwf
        exact ⟨fun _ => hwf, fun _ => rfl⟩
    | some s =>
        simp only [rcWF, hob, Bool.and_eq_true, beq_iff_eq, decide_eq_true_eq] at hwf
        obtain ⟨⟨hr, hw⟩, hwpos⟩ := hwf
        constructor
        · intro h
          exact Option.noConfusion h
        · intro ⟨h1, h2⟩
          exfalso
          rw [h1, h2] at hw
          rw [if_neg (by omega : ¬ ((0 : Nat) < 0))] at hw
          simp only [Nat.cast_zero] at hw
          omega
  · intro s h1 hfd
    rw [del_strong_eq_death s (by omega)]
    rw [hfd]

/-- Witness for C4: share, create a weak reference, drop the only strong
reference (the base release fires once, after the empty drain), fail a
lock on the dead object, drop the weak reference (the record is freed). -/
theorem shared_release_exactly_once_witness :
    noResurrect [RCOp.newWeak, RCOp.dropStrong, RCOp.lock, RCOp.dropWeak]
        ⟨some ⟨9, some (.user 4), [], 1, 1⟩, 1, 0⟩ = true
    ∧ RCRun [RCOp.newWeak, RCOp.dropStrong, RCOp.lock, RCOp.dropWeak]
        ⟨some ⟨9, some (.user 4), [], 1, 1⟩, 1, 0⟩ =
        some (⟨none, 0, 0⟩, [Event.baseRel (.user 4) 9, Event.freeShared])
    ∧ countBase [Event.baseRel (.user 4) 9, Event.freeShared] =
        (if (0 : Nat) = 0 then 1 else 0) := by
  refine ⟨by decide, by decide, ?_⟩
  have h := shared_release_exactly_once 9 4 [] [RCOp.newWeak, RCOp.dropStrong, RCOp.lock, RCOp.dropWeak]
    (⟨none, 0, 0⟩, [Event.baseRel (.user 4) 9, Event.freeShared]) (by decide) (by decide)
  exact h.1

/-- C6: `acu_lock_reference` on a weak reference returns `NULL` exactly
when the object's strong count is zero; the count is left observably at
zero, so a subsequent attempt behaves identically.  On success it returns
a fresh strong-forward entry, increments the strong count by exactly one,
and the new entry — created inside the call's own bracket and then
`acu_yield`ed — ends up on the stack at the caller's scope level with only
the transferable capability. -/
theorem lock_reference_absent_iff_dead
    (ts : ThreadState) (s : SObj) (wId : Nat) (w : Entry)
    (hfind : ts.stack.find? (fun e => decide (e.id = wId)) = some w)
    (hweak : w.del = some .weakRef)
    (hWF : ∀ e ∈ ts.stack, e.id < ts.nextId) :
    (s.refcnt = 0 →
      acu_lock_reference wId ts s =
        .ok ((none, { ts with latest := none }, { s with refcnt := 0 }), [])
      ∧ acu_lock_reference wId { ts with latest := none } { s with refcnt := 0 } =
        .ok ((none, { ts with latest := none }, { s with refcnt := 0 }), []))
    ∧ (s.refcnt ≠ 0 →
      acu_lock_reference wId ts s =
        .ok ((some ts.nextId,
          { ts with
              stack := (⟨ts.nextId, w.ptr, some .strongRef, ts.scopeLevel,
                _ACU_TRANSFERRABLE⟩ : Entry) :: ts.stack
              latest := some ts.nextId
              nextId := ts.nextId + 1 },
          { s with refcnt := s.refcnt + 1 }), [])) := by
  have hcond : ¬ (w.del ≠ some DelFun.weakRef) := by simp [hweak]
  have hL : ts.scopeLevel + 1 - 1 = ts.scopeLevel := by omega
  have hmapold : ∀ (F : Entry → Entry),
      ts.stack.map (fun e => if e.id = ts.nextId then F e else e) = ts.stack := by
    intro F
    apply map_eq_self_of
    intro e he
    have := hWF e he
    rw [if_neg (by omega)]
  constructor
  · intro hz
    have hzero : ∀ (ts' : ThreadState), ts'.stack = ts.stack →
        acu_lock_reference wId ts' { s with refcnt := 0 } =
          .ok ((none, { ts' with
              latest := none
              scopeLevel := ts'.scopeLevel + 1 - 1 }, { s with refcnt := 0 }), []) := by
      intro ts' hst
      simp only [acu_lock_reference, hst, hfind]
      rw [if_neg hcond]
      simp only [enterScope]
      simp only [if_true]
      simp [leaveScope, _acu_cleanup_seg, hst]
    have h1 := hzero ts rfl
    have h2 := hzero { ts with latest := none } rfl
    have hs0 : ({ s with refcnt := 0 } : SObj) = s := by
      obtain ⟨bp, bd, tl, rc, wc⟩ := s
      simp only at hz
      subst hz
      rfl
    rw [hs0] at h1 h2
    have hts1 : ({ ts with
        latest := none
        scopeLevel := ts.scopeLevel + 1 - 1 } : ThreadState) =
        { ts with latest := none } := by
      rw [hL]
    have hts2 : ({ { ts with latest := none } with
        latest := none
        scopeLevel := ({ ts with latest := none } : ThreadState).scopeLevel + 1 - 1 } :
          ThreadState) = { ts with latest := none } := by
      simp only
      rw [hL]
    rw [hts1] at h1
    rw [hts2] at h2
    rw [hs0]
    exact ⟨h1, h2⟩
  · intro hnz
    simp only [acu_lock_reference, hfind]
    rw [if_neg hcond]
    simp only [enterScope]
    rw [if_neg hnz]
    simp only [acu_new_unique, _acu_new_unique, List.map_cons]
    have hp : ((_ACU_TRANSFERRABLE ||| _ACU_SHAREABLE ||| _ACU_SUBMITTABLE : Nat)
        - ((_ACU_TRANSFERRABLE ||| _ACU_SHAREABLE ||| _ACU_SUBMITTABLE : Nat)
          &&& (_ACU_SUBMITTABLE ||| _ACU_SHAREABLE : Nat))) = _ACU_TRANSFERRABLE := by
      decide
    simp only [clearProps, hmapold, if_pos rfl]
    simp only [if_true, hp]
    have hgT : ∀ props, capGuardAsWritten props _ACU_TRANSFERRABLE = false :=
      fun props => capGuardAsWritten_false props _ACU_TRANSFERRABLE (by decide)
    have hgt1 : ts.scopeLevel + 1 > ts.scopeLevel + 1 - 1 := by omega
    have hfind2 : ((⟨ts.nextId, w.ptr, some DelFun.strongRef, ts.scopeLevel + 1,
        _ACU_TRANSFERRABLE⟩ : Entry) :: ts.stack).find?
          (fun e => decide (e.id = ts.nextId)) =
        some ⟨ts.nextId, w.ptr, some DelFun.strongRef, ts.scopeLevel + 1,
          _ACU_TRANSFERRABLE⟩ := by
      simp [List.find?]
    have hyield : acu_yield ts.nextId
        { stack := (⟨ts.nextId, w.ptr, some DelFun.strongRef, ts.scopeLevel + 1,
            _ACU_TRANSFERRABLE⟩ : Entry) :: ts.stack
          latest := some ts.nextId
          scopeLevel := ts.scopeLevel + 1
          nextId := ts.nextId + 1 } =
        .ok { stack := (⟨ts.nextId, w.ptr, some DelFun.strongRef, ts.scopeLevel + 1 - 1,
            _ACU_TRANSFERRABLE⟩ : Entry) :: ts.stack
              latest := some ts.nextId
              scopeLevel := ts.scopeLevel + 1
              nextId := ts.nextId + 1 } := by
      simp only [acu_yield, hfind2, hgT, Bool.false_eq_true, if_false, List.map_cons]
      rw [if_pos hgt1]
      simp only [eq_self_iff_true, if_true]
      rw [hmapold]
    rw [hyield]
    have hlen : (((⟨ts.nextId, w.ptr, some DelFun.strongRef, ts.scopeLevel + 1 - 1,
        _ACU_TRANSFERRABLE⟩ : Entry) :: ts.stack).length - ts.stack.length) = 1 := by
      simp
    have hleave : leaveScope ts.stack
        { stack := (⟨ts.nextId, w.ptr, some DelFun.strongRef, ts.scopeLevel + 1 - 1,
            _ACU_TRANSFERRABLE⟩ : Entry) :: ts.stack
          latest := some ts.nextId
          scopeLevel := ts.scopeLevel + 1
          nextId := ts.nextId + 1 } =
        ({ stack := (⟨ts.nextId, w.ptr, some DelFun.strongRef, ts.scopeLevel + 1 - 1,
            _ACU_TRANSFERRABLE⟩ : Entry) :: ts.stack
           latest := some ts.nextId
           scopeLevel := ts.scopeLevel + 1 - 1
           nextId := ts.nextId + 1 }, []) := by
      simp only [leaveScope, hlen]
      simp [_acu_cleanup_seg, lt_irrefl]
    simp only [hleave]
    rw [hL]

/-- Witness for C6: locking a weak reference to a dead object (strong
count zero) yields `NULL` and changes nothing; locking a live one yields
a new strong entry at the caller's scope with the count bumped to 2. -/
theorem lock_reference_absent_iff_dead_witness :
    (([⟨0, 5, some DelFun.weakRef, 0, 1⟩] : List Entry).find?
        (fun e => decide (e.id = 0)) = some ⟨0, 5, some DelFun.weakRef, 0, 1⟩)
    ∧ acu_lock_reference 0 ⟨[⟨0, 5, some DelFun.weakRef, 0, 1⟩], none, 0, 1⟩
        ⟨5, some (.user 2), [], 0, 1⟩ =
      .ok ((none, ⟨[⟨0, 5, some DelFun.weakRef, 0, 1⟩], none, 0, 1⟩,
        ⟨5, some (.user 2), [], 0, 1⟩), [])
    ∧ acu_lock_reference 0 ⟨[⟨0, 5, some DelFun.weakRef, 0, 1⟩], none, 0, 1⟩
        ⟨5, some (.user 2), [], 1, 1⟩ =
      .ok ((some 1,
        ⟨[⟨1, 5, some DelFun.strongRef, 0, 1⟩, ⟨0, 5, some DelFun.weakRef, 0, 1⟩],
          some 1, 0, 2⟩,
        ⟨5, some (.user 2), [], 2, 1⟩), []) := by
  refine ⟨by decide, ?_, ?_⟩
  · exact ((lock_reference_absent_iff_dead
      ⟨[⟨0, 5, some DelFun.weakRef, 0, 1⟩], none, 0, 1⟩ ⟨5, some (.user 2), [], 0, 1⟩
      0 ⟨0, 5, some DelFun.weakRef, 0, 1⟩ (by decide) (by decide) (by decide)).1 rfl).1
  · exact (lock_reference_absent_iff_dead
      ⟨[⟨0, 5, some DelFun.weakRef, 0, 1⟩], none, 0, 1⟩ ⟨5, some (.user 2), [], 1, 1⟩
      0 ⟨0, 5, some DelFun.weakRef, 0, 1⟩ (by decide) (by decide) (by decide)).2 (by decide)

/-- `acu_update`: reject a weak reference; follow a strong forward link
and replace the shared object's handle; otherwise replace the entry's own
handle in place (stack position and ownership untouched).  The
single-shared-object world: a strong forward entry's `ptr` is the address
of `s`. -/
def acu_update (i newptr : Nat) (ts : ThreadState) (s : SObj) :
    Except String (ThreadState × SObj) :=
  match ts.stack.find? (fun e => decide (e.id = i)) with
  | none => .error "invalid unique pointer"
  | some u =>
      if u.del = some .weakRef then
        .error "acu_update: cannot modify weakly referenced object"
      else if u.del = some .strongRef then
        .ok (ts, { s with basePtr := newptr })
      else
        .ok ({ ts with stack := ts.stack.map (fun e =>
            if e.id = i then { e with ptr := newptr } else e) }, s)

/-- `acu_transfer`: the guard as written (never fires), copy the base
record and capability flags into `to`, null `from`'s destructor and
destruct it (no release event, `del` is `NULL` by then). -/
def acu_transfer (fromId toId : Nat) (ts : ThreadState) :
    Except String (ThreadState × List Event) :=
  match ts.stack.find? (fun e => decide (e.id = fromId)) with
  | none => .error "invalid unique pointer"
  | some u =>
      if capGuardAsWritten u.properties _ACU_TRANSFERRABLE then
        .error "acu_transfer: non-transferrable pointer"
      else
        .ok (acu_destruct fromId
          { ts with stack := ts.stack.map (fun e =>
              if e.id = toId then
                { e with ptr := u.ptr, del := u.del, properties := u.properties }
              else if e.id = fromId then { e with del := none } else e) })

/-- `acu_swap`: the guard as written
(`a->properties & b->properties & _ACU_TRANSFERRABLE == 0`, never fires),
then exchange base records and capability flags in place. -/
def acu_swap (aId bId : Nat) (ts : ThreadState) : Except String ThreadState :=
  match ts.stack.find? (fun e => decide (e.id = aId)),
        ts.stack.find? (fun e => decide (e.id = bId)) with
  | some a, some b =>
      if capGuardAsWritten (a.properties &&& b.properties) _ACU_TRANSFERRABLE then
        .error "acu_swap: non-transferrable pointer"
      else
        .ok { ts with stack := ts.stack.map (fun e =>
          if e.id = aId then { e with ptr := b.ptr, del := b.del, properties := b.properties }
          else if e.id = bId then { e with ptr := a.ptr, del := a.del, properties := a.properties }
          else e) }
  | _, _ => .error "invalid unique pointer"

/-- `acu_submit_to`, list level: the capability guard as written (never
fires), a copy of the entry pushed onto the shared object's private
stack, the original unlinked from the main stack without any destructor
call, `_acu_latest` cleared.  This is the intended relocation; the
pointer-level model further below exposes how the copy is actually
linked. -/
def acu_submit_to (i : Nat) (ts : ThreadState) (s : SObj) :
    Except String (ThreadState × SObj) :=
  match ts.stack.find? (fun e => decide (e.id = i)) with
  | none => .error "invalid unique pointer"
  | some u =>
      if capGuardAsWritten u.properties _ACU_SUBMITTABLE then
        .error "acu_submit_to: cannot be submitted"
      else
        .ok ({ ts with
            stack := ts.stack.filter (fun e => e.id ≠ i)
            latest := none
            nextId := ts.nextId + 1 },
          { s with tail := (⟨ts.nextId, u.ptr, u.del, ts.scopeLevel,
              _ACU_TRANSFERRABLE ||| _ACU_SHAREABLE ||| _ACU_SUBMITTABLE⟩ : Entry) :: s.tail })

/-- C10: `acu_share` does not consume the one-shot `_acu_latest`
register, while `acu_latest`, `acu_destruct` and `acu_submit_to` each
clear it; consequently register-then-share leaves the register pointing
at the entry (now a strong forward reference) and a following
`acu_latest` returns that entry instead of failing. -/
theorem share_preserves_latest_register :
    (∀ (i sAddr : Nat) (ts ts' : ThreadState) (s : SObj),
        acu_share i sAddr ts = .ok (ts', s) → ts'.latest = ts.latest)
    ∧ (∀ (i : Nat) (ts : ThreadState), (acu_destruct i ts).1.latest = none)
    ∧ (∀ (i : Nat) (ts ts' : ThreadState) (s s' : SObj),
        acu_submit_to i ts s = .ok (ts', s') → ts'.latest = none)
    ∧ (∀ (ts ts' : ThreadState) (i : Nat),
        acu_latest ts = .ok (i, ts') → ts'.latest = none)
    ∧ (∀ (p f sAddr : Nat) (ts ts2 : ThreadState) (s : SObj),
        acu_share ts.nextId sAddr (acu_new_unique p (some (.user f)) ts).2 =
          .ok (ts2, s) →
        acu_latest ts2 = .ok (ts.nextId, { ts2 with latest := none })
        ∧ ts2.stack.find? (fun e => decide (e.id = ts.nextId)) =
            some ⟨ts.nextId, sAddr, some .strongRef, ts.scopeLevel,
              _ACU_TRANSFERRABLE ||| _ACU_SHAREABLE ||| _ACU_SUBMITTABLE⟩) := by
  have hg : ∀ props, capGuardAsWritten props _ACU_SHAREABLE = false :=
    fun props => capGuardAsWritten_false props _ACU_SHAREABLE (by decide)
  have hshare : ∀ (i sAddr : Nat) (ts ts' : ThreadState) (s : SObj),
      acu_share i sAddr ts = .ok (ts', s) →
      ts' = { ts with stack := ts.stack.map (fun e =>
          if e.id = i then { e with ptr := sAddr, del := some .strongRef } else e) } := by
    intro i sAddr ts ts' s hsh
    cases hfind : ts.stack.find? (fun e => decide (e.id = i)) with
    | none =>
        simp only [acu_share, hfind] at hsh
        exact Except.noConfusion hsh
    | some u =>
        simp only [acu_share, hfind, hg, Bool.false_eq_true, if_false,
          Except.ok.injEq, Prod.mk.injEq] at hsh
        exact hsh.1.symm
  refine ⟨?_, ?_, ?_, ?_, ?_⟩
  · intro i sAddr ts ts' s hsh
    rw [hshare i sAddr ts ts' s hsh]
  · intro i ts
    unfold acu_destruct
    cases hfind : ts.stack.find? (fun e => decide (e.id = i)) <;> simp [hfind]
  · intro i ts ts' s s' hsub
    cases hfind : ts.stack.find? (fun e => decide (e.id = i)) with
    | none =>
        simp only [acu_submit_to, hfind] at hsub
        exact Except.noConfusion hsub
    | some u =>
        have hgs : capGuardAsWritten u.properties _ACU_SUBMITTABLE = false :=
          capGuardAsWritten_false u.properties _ACU_SUBMITTABLE (by decide)
        simp only [acu_submit_to, hfind, hgs, Bool.false_eq_true, if_false,
          Except.ok.injEq, Prod.mk.injEq] at hsub
        rw [← hsub.1]
  · intro ts ts' i hl
    cases hlat : ts.latest with
    | none => simp only [acu_latest, hlat] at hl; exact Except.noConfusion hl
    | some j =>
        simp only [acu_latest, hlat, Except.ok.injEq, Prod.mk.injEq] at hl
        rw [← hl.2]
  · intro p f sAddr ts ts2 s hsh
    have hts2 := hshare ts.nextId sAddr _ ts2 s hsh
    have hfindhead : ((acu_new_unique p (some (.user f)) ts).2).stack.map (fun e =>
          if e.id = ts.nextId then { e with ptr := sAddr, del := some DelFun.strongRef }
          else e) =
        (⟨ts.nextId, sAddr, some .strongRef, ts.scopeLevel,
          _ACU_TRANSFERRABLE ||| _ACU_SHAREABLE ||| _ACU_SUBMITTABLE⟩ : Entry) ::
          ts.stack.map (fun e =>
            if e.id = ts.nextId then { e with ptr := sAddr, del := some DelFun.strongRef }
            else e) := by
      simp [acu_new_unique, _acu_new_unique]
    constructor
    · rw [hts2]
      simp only [acu_new_unique, _acu_new_unique]
      rfl
    · rw [hts2, hfindhead]
      simp [List.find?]

/-- Witness for C10: register a resource, share its entry; the latest
register still holds the entry and `acu_latest` returns it as a strong
forward reference. -/
theorem share_preserves_latest_register_witness :
    acu_share 0 9 ⟨[⟨0, 3, some (.user 1), 0, 7⟩], some 0, 0, 1⟩ =
      .ok (⟨[⟨0, 9, some DelFun.strongRef, 0, 7⟩], some 0, 0, 1⟩,
        ⟨3, some (.user 1), [], 1, 1⟩)
    ∧ (⟨[⟨0, 9, some DelFun.strongRef, 0, 7⟩], some 0, 0, 1⟩ : ThreadState).latest =
        (⟨[⟨0, 3, some (.user 1), 0, 7⟩], some 0, 0, 1⟩ : ThreadState).latest
    ∧ acu_latest ⟨[⟨0, 9, some DelFun.strongRef, 0, 7⟩], some 0, 0, 1⟩ =
        .ok (0, ⟨[⟨0, 9, some DelFun.strongRef, 0, 7⟩], none, 0, 1⟩) := by
  refine ⟨by rfl, ?_, ?_⟩
  · exact share_preserves_latest_register.1 0 9
      ⟨[⟨0, 3, some (.user 1), 0, 7⟩], some 0, 0, 1⟩
      ⟨[⟨0, 9, some DelFun.strongRef, 0, 7⟩], some 0, 0, 1⟩
      ⟨3, some (.user 1), [], 1, 1⟩ (by rfl)
  · exact (share_preserves_latest_register.2.2.2.2 3 1 9 ⟨[], none, 0, 0⟩
      ⟨[⟨0, 9, some DelFun.strongRef, 0, 7⟩], some 0, 0, 1⟩
      ⟨3, some (.user 1), [], 1, 1⟩ (by rfl)).1

/-- C8 (documents the defect): the capability guards as the C compiler
parses them — `props & FLAG == 0` is `props & (FLAG == 0)`, i.e.
`props & 0` — never fire, for any bitset and each of the three nonzero
flags, even where the intended test (the flag is absent) succeeds;
concretely, a weak-reference entry (shareable and submittable cleared,
properties = `_ACU_TRANSFERRABLE`) passes through `acu_share` and
`acu_submit_to` without any condition being thrown. -/
theorem capability_guards_never_fire :
    (∀ props : Nat,
        capGuardAsWritten props _ACU_TRANSFERRABLE = false
        ∧ capGuardAsWritten props _ACU_SHAREABLE = false
        ∧ capGuardAsWritten props _ACU_SUBMITTABLE = false)
    ∧ capGuardIntended _ACU_TRANSFERRABLE _ACU_SHAREABLE = true
    ∧ capGuardIntended _ACU_TRANSFERRABLE _ACU_SUBMITTABLE = true
    ∧ acu_share 0 9 ⟨[⟨0, 5, some DelFun.weakRef, 0, _ACU_TRANSFERRABLE⟩], none, 0, 1⟩ =
        .ok (⟨[⟨0, 9, some DelFun.strongRef, 0, _ACU_TRANSFERRABLE⟩], none, 0, 1⟩,
          ⟨5, some DelFun.weakRef, [], 1, 1⟩)
    ∧ acu_submit_to 0 ⟨[⟨0, 5, some DelFun.weakRef, 0, _ACU_TRANSFERRABLE⟩], none, 0, 1⟩
        ⟨7, none, [], 1, 1⟩ =
        .ok (⟨[], none, 0, 2⟩, ⟨7, none, [⟨1, 5, some DelFun.weakRef, 0, 7⟩], 1, 1⟩) := by
  refine ⟨?_, by decide, by decide, by rfl, by rfl⟩
  intro props
  exact ⟨capGuardAsWritten_false props _ACU_TRANSFERRABLE (by decide),
    capGuardAsWritten_false props _ACU_SHAREABLE (by decide),
    capGuardAsWritten_false props _ACU_SUBMITTABLE (by decide)⟩

/-- Counterexample to C9 as stated: `acu_update` applied to a strong
forward-reference entry (the resource has been shared) does not fail — it
follows the forward link and replaces the shared object's handle (5 is
replaced by 42). -/
theorem update_on_shared_succeeds :
    acu_update 0 42 ⟨[⟨0, 9, some DelFun.strongRef, 0, 7⟩], none, 0, 1⟩
        ⟨5, some (.user 2), [], 1, 1⟩ =
      .ok (⟨[⟨0, 9, some DelFun.strongRef, 0, 7⟩], none, 0, 1⟩,
        ⟨42, some (.user 2), [], 1, 1⟩) := by
  rfl

/-- C9 as amended: `acu_update` fails with a condition on a weak
reference; on an owned entry it replaces the handle in place, changing
neither ownership nor stack position; on a strong forward reference it
does not fail but follows the link and replaces the shared object's
handle. -/
theorem update_follows_strong_link
    (ts : ThreadState) (s : SObj) (i newptr : Nat) (u : Entry)
    (hfind : ts.stack.find? (fun e => decide (e.id = i)) = some u) :
    (u.del = some .weakRef →
      acu_update i newptr ts s =
        .error "acu_update: cannot modify weakly referenced object")
    ∧ (u.del = some .strongRef →
      acu_update i newptr ts s = .ok (ts, { s with basePtr := newptr }))
    ∧ (∀ g, u.del = some (.user g) →
      acu_update i newptr ts s =
        .ok ({ ts with stack := ts.stack.map (fun e =>
            if e.id = i then { e with ptr := newptr } else e) }, s))
    ∧ (u.del = none →
      acu_update i newptr ts s =
        .ok ({ ts with stack := ts.stack.map (fun e =>
            if e.id = i then { e with ptr := newptr } else e) }, s)) := by
  refine ⟨?_, ?_, ?_, ?_⟩
  · intro hw
    simp only [acu_update, hfind, hw]
    rfl
  · intro hs
    simp only [acu_update, hfind, hs]
    rfl
  · intro g hu
    simp only [acu_update, hfind, hu]
    rfl
  · intro hn
    simp only [acu_update, hfind, hn]
    rfl

/-- Witness for the amended C9: weak fails, owned updates in place,
strong forward updates the shared handle. -/
theorem update_follows_strong_link_witness :
    (([⟨0, 5, some DelFun.weakRef, 0, 1⟩] : List Entry).find?
        (fun e => decide (e.id = 0)) = some ⟨0, 5, some DelFun.weakRef, 0, 1⟩)
    ∧ acu_update 0 42 ⟨[⟨0, 5, some DelFun.weakRef, 0, 1⟩], none, 0, 1⟩
        ⟨5, some (.user 2), [], 1, 1⟩ =
      .error "acu_update: cannot modify weakly referenced object" := by
  refine ⟨by decide, ?_⟩
  exact (update_follows_strong_link
    ⟨[⟨0, 5, some DelFun.weakRef, 0, 1⟩], none, 0, 1⟩ ⟨5, some (.user 2), [], 1, 1⟩
    0 42 ⟨0, 5, some DelFun.weakRef, 0, 1⟩ (by decide)).1 rfl

/-! ## Pointer-level model of `acu_submit_to`

`acu_submit_to` pushes onto a different stack (`s->tail`) through
`_acu_new_unique`, whose line `u->prev = _acu_stack_ptr;` reads the
*global main-stack top* no matter which stack receives the node.  The
list model cannot express that cross-stack link, so the two functions are
also modelled at the pointer level: a heap of nodes addressed by `Nat`,
the global `_acu_stack_ptr`, and the shared object's `tail` pointer. -/

/-- `struct _acu_stack_node` with its raw links. -/
structure CNode where
  ptr : Nat
  del : Option DelFun
  next : Option Nat
  prev : Option Nat
  scope : Int
  props : Nat
deriving DecidableEq, Repr

/-- The mutable world: the heap (newest allocation first), the allocator
cursor, `_acu_stack_ptr`, the single shared object's `tail`,
`_acu_latest` and `_acu_scope`. -/
structure CWorld where
  heap : List (Nat × CNode)
  nextAddr : Nat
  stackPtr : Option Nat
  tailPtr : Option Nat
  latest : Option Nat
  scopeLevel : Int
deriving DecidableEq, Repr

def hget (h : List (Nat × CNode)) (a : Nat) : Option CNode :=
  match h.find? (fun x => decide (x.1 = a)) with
  | some x => some x.2
  | none => none

def hset (h : List (Nat × CNode)) (a : Nat) (n : CNode) : List (Nat × CNode) :=
  h.map (fun x => if x.1 = a then (a, n) else x)

def hfree (h : List (Nat × CNode)) (a : Nat) : List (Nat × CNode) :=
  h.filter (fun x => x.1 ≠ a)

/-- Which stack a `_acu_new_unique` call pushes to: the thread's main
stack (`&_acu_stack_ptr`) or the shared object's private stack
(`&s->tail`). -/
inductive StackRef
  | main
  | tail
deriving DecidableEq, Repr

def readRef : StackRef → CWorld → Option Nat
  | .main, w => w.stackPtr
  | .tail, w => w.tailPtr

def writeRef : StackRef → Option Nat → CWorld → CWorld
  | .main, v, w => { w with stackPtr := v }
  | .tail, v, w => { w with tailPtr := v }

def setNext (a : Nat) (v : Option Nat) (w : CWorld) : CWorld :=
  match hget w.heap a with
  | some n => { w with heap := hset w.heap a { n with next := v } }
  | none => w

/-- `_acu_new_unique` at the pointer level, exactly as in the source:
`u->prev = _acu_stack_ptr;` links the fresh node to the main stack's top
even when the node is pushed onto a shared object's private stack
(`stack_ptr_ref = &s->tail`); then `if (*stack_ptr_ref)
(*stack_ptr_ref)->next = u; *stack_ptr_ref = u;`. -/
def _acu_new_unique_h (ptr : Nat) (del : Option DelFun) (r : StackRef) (w : CWorld) :
    Nat × CWorld :=
  let a := w.nextAddr
  let u : CNode :=
    { ptr := ptr, del := del, next := none, prev := w.stackPtr,
      scope := w.scopeLevel,
      props := _ACU_TRANSFERRABLE ||| _ACU_SHAREABLE ||| _ACU_SUBMITTABLE }
  let w1 := match readRef r w with
    | some t => setNext t (some a) w
    | none => w
  let w2 := { w1 with heap := (a, u) :: w1.heap, nextAddr := a + 1 }
  (a, writeRef r (some a) w2)

/-- `acu_submit_to` at the pointer level (single-threaded build): the
capability guard as written, the copy pushed onto `s->tail` via
`_acu_new_unique`, then the original unlinked from the main stack and
freed, and `_acu_latest` cleared. -/
def acu_submit_to_h (uAddr : Nat) (w : CWorld) : Except String CWorld :=
  match hget w.heap uAddr with
  | none => .error "invalid unique pointer"
  | some u =>
      if capGuardAsWritten u.props _ACU_SUBMITTABLE then
        .error "acu_submit_to: cannot be submitted"
      else
        let w1 := (_acu_new_unique_h u.ptr u.del .tail w).2
        let w2 := match u.prev with
          | some p => setNext p u.next w1
          | none => w1
        let w3 := match u.next with
          | some nx =>
              match hget w2.heap nx with
              | some nn => { w2 with heap := hset w2.heap nx { nn with prev := u.prev } }
              | none => w2
          | none => { w2 with stackPtr := u.prev }
        .ok { w3 with latest := none, heap := hfree w3.heap uAddr }

/-- C7 (documents the defect): the relocation performed by
`acu_submit_to` links the private-stack copy into the main stack:
`_acu_new_unique` sets the fresh node's `prev` to `_acu_stack_ptr`
regardless of the destination stack.  Submitting the sole main-stack node
(address 1) leaves the private stack's node with `prev = some 1` — the
just-freed main node — instead of `none`; after two submits the
private-stack top (address 4) has `prev = some 1` (freed), so the first
submitted node (address 3) is not reachable by the `prev` walk that
`_acu_cleanup(NULL, &s->tail, 0)` performs, and its release would be
skipped.  The relocation itself emits no release event — the one part of
the claim the code does meet. -/
theorem submit_to_links_tail_into_main_stack :
    (acu_submit_to_h 1
        ⟨[(1, ⟨42, some (.user 9), none, none, 1, 7⟩)], 2, some 1, none, some 1, 1⟩ =
      .ok ⟨[(2, ⟨42, some (.user 9), none, some 1, 1, 7⟩)], 3, none, some 2, none, 1⟩)
    ∧ (hget [((2 : Nat), (⟨42, some (.user 9), none, some 1, 1, 7⟩ : CNode))] 1 = none)
    ∧ (acu_submit_to_h 2
        ⟨[(2, ⟨42, some (.user 9), none, some 1, 1, 7⟩),
          (1, ⟨41, some (.user 8), some 2, none, 1, 7⟩)], 3, some 2, none, some 2, 1⟩ =
      .ok ⟨[(3, ⟨42, some (.user 9), none, some 2, 1, 7⟩),
          (1, ⟨41, some (.user 8), none, none, 1, 7⟩)], 4, some 1, some 3, none, 1⟩)
    ∧ (acu_submit_to_h 1
        ⟨[(3, ⟨42, some (.user 9), none, some 2, 1, 7⟩),
          (1, ⟨41, some (.user 8), none, none, 1, 7⟩)], 4, some 1, some 3, none, 1⟩ =
      .ok ⟨[(4, ⟨41, some (.user 8), none, some 1, 1, 7⟩),
          (3, ⟨42, some (.user 9), some 4, some 2, 1, 7⟩)], 5, none, some 4, none, 1⟩)
    ∧ (hget [((4 : Nat), (⟨41, some (.user 8), none, some 1, 1, 7⟩ : CNode)),
        ((3 : Nat), (⟨42, some (.user 9), some 4, some 2, 1, 7⟩ : CNode))] 1 = none)
    ∧ ((⟨41, some (.user 8), none, some 1, 1, 7⟩ : CNode).prev ≠ some 3) := by
  exact ⟨by rfl, by decide, by rfl, by rfl, by decide, by decide⟩

end Acu
